import Mathlib

/-!
Verification of the DocumentScannerAI text pipeline.

Shallow embedding of the relevant source functions:
* `src/file_handlers/pdf_handler.py` — `_clean_text` (six cleaning passes)
* `src/analysis/ai_analysis.py` — `_extract_resume_section`,
  `_create_fallback_analysis`, `_parse_json_response`, the prompt template
  substitution performed by `analyse_resume`, and the input guard of
  `analyse_resume`
* `src/utils/validators.py` — `scan_pdf_for_malicious_content`
* `src/config.py` — the constants those functions read

Strings are modelled as `List Char` throughout (one element per Python
character).  Fallible Python code is modelled with `Except`.
-/

namespace DocScan

/-- The characters matched by Python's `str.strip()` / `str.split()` and by
the regex class `\s` for ASCII text: space, tab, newline, carriage return,
vertical tab and form feed. -/
def isPySpace (c : Char) : Bool :=
  c = ' ' || c = '\t' || c = '\n' || c = '\r' || c = '\x0b' || c = '\x0c'

/-- Printable ASCII, the regex class `[\x20-\x7E]` of `_clean_text` pass 1. -/
def printableB (c : Char) : Bool :=
  0x20 ≤ c.toNat && c.toNat ≤ 0x7e

/-- `{` without writing a brace character in the file's strings. -/
def lbrace : Char := Char.ofNat 123

/-- `}` without writing a brace character in the file's strings. -/
def rbrace : Char := Char.ofNat 125

/-- Python `str.lower()` restricted to ASCII (the only characters that can
reach the call sites below, all downstream of pass 1 of `_clean_text`;
non-ASCII characters are left unchanged by `Char.toLower` outside the
ASCII uppercase range used here). -/
def lowerL (l : List Char) : List Char := l.map Char.toLower

/-- Drop leading Python whitespace (`str.lstrip()`). -/
def dropLead (l : List Char) : List Char := l.dropWhile isPySpace

/-- Drop trailing Python whitespace (`str.rstrip()`). -/
def dropTrail (l : List Char) : List Char :=
  (l.reverse.dropWhile isPySpace).reverse

/-- Python `str.strip()`. -/
def pyStrip (l : List Char) : List Char := dropTrail (dropLead l)

/-- Scanner for Python `str.split()`: `cur` is the reversed current word
(empty when between words). -/
def pySplitGo (cur : List Char) : List Char → List (List Char)
  | [] => if cur.isEmpty then [] else [cur.reverse]
  | c :: r =>
    if isPySpace c then
      if cur.isEmpty then pySplitGo [] r else cur.reverse :: pySplitGo [] r
    else pySplitGo (c :: cur) r

/-- Python `str.split()` with no argument: split on runs of whitespace,
returning the (nonempty) words. -/
def pySplit (l : List Char) : List (List Char) := pySplitGo [] l

/-- Number of words of a string, Python `len(s.split())`. -/
def wordCountL (l : List Char) : Nat := (pySplit l).length

/-- Python `"\n".join(lines)` on the `List Char` model. -/
def joinNl : List (List Char) → List Char
  | [] => []
  | [l] => l
  | l :: r :: rest => l ++ '\n' :: joinNl (r :: rest)

/-- Python `" ".join(words)`. -/
def joinSp : List (List Char) → List Char
  | [] => []
  | [l] => l
  | l :: r :: rest => l ++ ' ' :: joinSp (r :: rest)

/-- Python `text.split("\n")`: always returns at least one piece, pieces are
newline-free. -/
def splitLines : List Char → List (List Char)
  | [] => [[]]
  | c :: r =>
    let s := splitLines r
    if c = '\n' then [] :: s else (c :: s.headD []) :: s.tail

/-- `pat` is a prefix of `l` (used to model Python substring search). -/
def startsW : List Char → List Char → Bool
  | [], _ => true
  | _ :: _, [] => false
  | p :: ps, c :: cs => p = c && startsW ps cs

/-- Python's `pat in l` substring containment. -/
def hasSub (pat : List Char) : List Char → Bool
  | [] => startsW pat []
  | c :: r => startsW pat (c :: r) || hasSub pat r

/-- Decimal digits of a natural number, Python `str(n)` for `n ≥ 0`. -/
def natDigits (n : Nat) : List Char := Nat.toDigits 10 n

/-! ## `_clean_text` (src/file_handlers/pdf_handler.py, lines 52-158) -/

/-- PASS 1 of `_clean_text`: `re.sub(r'[^\x20-\x7E\n]', ' ', text)`.
(The preceding `encode("utf-8", errors="ignore").decode("utf-8")` is the
identity on the already-decoded strings modelled here.) -/
def pass1 (l : List Char) : List Char :=
  l.map (fun c => if printableB c || c = '\n' then c else ' ')

/-- PASS 2 of `_clean_text`: `re.sub(r'-\n(\S)', r'\1', text)` — a single
left-to-right scan replacing each non-overlapping occurrence of a hyphen,
newline and non-whitespace character by that character alone. -/
def pass2 : List Char → List Char
  | '-' :: '\n' :: c :: rest =>
    if isPySpace c then '-' :: pass2 ('\n' :: c :: rest) else c :: pass2 rest
  | c :: rest => c :: pass2 rest
  | [] => []

/-- The regex class `[ \t]` of PASS 3. -/
def spaceTab (c : Char) : Bool := c = ' ' || c = '\t'

/-- Scanner for the collapsing part of PASS 3
(`re.sub(r'[ \t]+', ' ', line)`): `inRun` records whether the previous
character belonged to a space/tab run whose single `' '` is already
emitted. -/
def collapseGo (inRun : Bool) : List Char → List Char
  | [] => []
  | c :: r =>
    if spaceTab c then
      if inRun then collapseGo true r else ' ' :: collapseGo true r
    else c :: collapseGo false r

/-- The collapsing part of PASS 3: `re.sub(r'[ \t]+', ' ', line)`. -/
def collapseWs (l : List Char) : List Char := collapseGo false l

/-- PASS 3 of `_clean_text`, per line: collapse spaces/tabs then `strip()`. -/
def normLine (l : List Char) : List Char := pyStrip (collapseWs l)

/-- Python regex `\w` for ASCII text: letters, digits, underscore. -/
def isWordCh (c : Char) : Bool := c.isAlpha || c.isDigit || c = '_'

/-- A nonempty line fully matching `[\W\d\s]+`: every character is a
non-word character, a digit or whitespace — equivalently, the line contains
no letter and no underscore. -/
def junkB (l : List Char) : Bool :=
  !l.isEmpty && l.all (fun c => !isWordCh c || c.isDigit || isPySpace c)

/-- PASS 4 of `_clean_text`: keep empty lines, drop junk lines and
single-character lines. -/
def pass4 : List (List Char) → List (List Char)
  | [] => []
  | l :: r =>
    if l.isEmpty then [] :: pass4 r
    else if junkB l then pass4 r
    else if l.length = 1 then pass4 r
    else l :: pass4 r

/-- The `common_headers` set of `_clean_text` PASS 5 (pdf_handler.py,
lines 99-122), as lists of characters. -/
def commonHeaders : List (List Char) :=
  ["education", "academic", "qualifications", "degree", "credentials",
   "experience", "employment", "work experience", "career history",
   "professional experience", "positions held", "work history",
   "job history", "professional background",
   "skills", "technical skills", "core competencies", "competencies",
   "expertise", "proficiencies", "abilities", "capabilities",
   "areas of expertise",
   "summary", "professional summary", "executive summary", "profile",
   "objective", "career objective", "professional objective", "about",
   "about me",
   "certifications", "certification", "certified", "licenses", "license",
   "training", "professional development", "courses", "accreditations",
   "projects", "portfolio", "key projects", "notable projects",
   "awards", "honors", "recognition", "achievements", "accomplishments",
   "languages", "language", "volunteer", "volunteering", "volunteer work",
   "publications", "references", "contact", "contact information",
   "details", "interests", "additional", "activities", "involvement",
   "leadership", "technical expertise", "knowledge", "tools",
   "technologies", "technical proficiencies"].map String.toList

/-- Python `str.isupper()` for a list of characters: at least one cased
character and no lowercase character (ASCII). -/
def pyIsUpper (l : List Char) : Bool :=
  l.any (fun c => c.isUpper) && l.all (fun c => !c.isLower)

/-- One step of CPython's `str.istitle()` scan; the accumulator is
`(previous_is_cased, cased, still_ok)`. -/
def titleStep (acc : Bool × Bool × Bool) (c : Char) : Bool × Bool × Bool :=
  let prevCased := acc.1
  let cased := acc.2.1
  let ok := acc.2.2
  if c.isUpper then (true, true, ok && !prevCased)
  else if c.isLower then (true, true, ok && prevCased)
  else (false, cased, ok)

/-- Python `str.istitle()` restricted to ASCII. -/
def pyIsTitle (l : List Char) : Bool :=
  let r := l.foldl titleStep (false, false, true)
  r.2.1 && r.2.2

/-- The characters stripped by `lower.rstrip(':-•–—')` in PASS 5. -/
def headerPunct (c : Char) : Bool :=
  c = ':' || c = '-' || c = '•' || c = '–' || c = '—'

/-- Python `str.endswith(('.', ',', ';'))`. -/
def endsSentence (l : List Char) : Bool :=
  match l.getLast? with
  | some c => c = '.' || c = ',' || c = ';'
  | none => false

/-- The header test of `_clean_text` PASS 5 (pdf_handler.py lines 130-139). -/
def isHeader (line : List Char) : Bool :=
  let lower := pyStrip (lowerL line)
  let lowerClean := (lower.reverse.dropWhile headerPunct).reverse |> dropTrail
  line.length < 60 && !endsSentence line &&
    (pyIsUpper line || pyIsTitle line ||
      commonHeaders.contains lowerClean || commonHeaders.contains lower)

/-- The loop body of PASS 5 after the first line; `prev` is the line most
recently appended to `spaced` (every iteration appends its line, so
`spaced[-1]` is exactly the previous line; `i > 0` holds throughout). -/
def pass5Aux (prev : List Char) : List (List Char) → List (List Char)
  | [] => []
  | l :: rest =>
    if isHeader l && !prev.isEmpty then [] :: l :: pass5Aux l rest
    else l :: pass5Aux l rest

/-- PASS 5 of `_clean_text`: insert a blank line before a detected section
header whenever the previously emitted line is non-blank (never before the
first line, where `i > 0` fails). -/
def pass5 : List (List Char) → List (List Char)
  | [] => []
  | l :: rest => l :: pass5Aux l rest

/-- PASS 6 of `_clean_text`: keep at most one blank line per run;
`pb` records whether the previous input line was blank (i.e. whether
`blank_count` is already positive). -/
def pass6Go (pb : Bool) : List (List Char) → List (List Char)
  | [] => []
  | l :: rest =>
    if l.isEmpty then
      if pb then pass6Go true rest else [] :: pass6Go true rest
    else l :: pass6Go false rest

/-- PASS 6 of `_clean_text` from the initial `blank_count = 0` state. -/
def pass6 (ls : List (List Char)) : List (List Char) := pass6Go false ls

/-- The line list produced by passes 1-6 of `_clean_text`, before the final
join and strip. -/
def cleanLines (l : List Char) : List (List Char) :=
  pass6 (pass5 (pass4 ((splitLines (pass2 (pass1 l))).map normLine)))

/-- `_clean_text` (pdf_handler.py lines 52-158):
`"\n".join(final).strip()` applied to the six passes. -/
def clean_text (l : List Char) : List Char :=
  pyStrip (joinNl (cleanLines l))

/-! ## `_extract_resume_section` (src/analysis/ai_analysis.py, lines 39-77) -/

/-- `RESUME_MAX_WORDS` (src/config.py, line 65). -/
def RESUME_MAX_WORDS : Nat := 1200

/-- `RESUME_STOP_PHRASES` (src/config.py, lines 96-101). -/
def RESUME_STOP_PHRASES : List (List Char) :=
  ["certificate of", "this is to certify", "to whom it may concern",
   "reference letter", "dear hiring", "dear sir", "dear madam",
   "letter of recommendation", "hereby certify", "certificate number",
   "completion certificate", "awarded to", "this certifies"].map
    String.toList

/-- The stop test of `_extract_resume_section`:
`any(phrase in line.lower().strip() for phrase in RESUME_STOP_PHRASES)`. -/
def hasStop (line : List Char) : Bool :=
  RESUME_STOP_PHRASES.any (fun p => hasSub p (pyStrip (lowerL line)))

/-- The line loop of `_extract_resume_section`; `kept` and `wc` are the
`kept_lines` and `word_count` accumulators. -/
def extractGo (maxW : Nat) : List (List Char) → List (List Char) → Nat →
    List (List Char)
  | [], kept, _ => kept
  | line :: rest, kept, wc =>
    if hasStop line then kept
    else
      let wl := (pySplit line).length
      if maxW < wc + wl then
        kept ++ [joinSp ((pySplit line).take (maxW - wc))]
      else extractGo maxW rest (kept ++ [line]) (wc + wl)

/-- `_extract_resume_section` with the word ceiling as a parameter (the
source reads the module constant `RESUME_MAX_WORDS` into `max_words`). -/
def extract_resume_sectionW (maxW : Nat) (t : List Char) : List Char :=
  pyStrip (joinNl (extractGo maxW (splitLines t) [] 0))

/-- `_extract_resume_section` (ai_analysis.py, lines 39-77). -/
def extract_resume_section (t : List Char) : List Char :=
  extract_resume_sectionW RESUME_MAX_WORDS t

/-! ## `_create_fallback_analysis` (src/analysis/ai_analysis.py, 80-122) -/

/-- The five-field result shape of the analysis functions. -/
structure AnalysisRecord where
  overall_impression : List Char
  strengths : List (List Char)
  weaknesses : List (List Char)
  key_skills : List (List Char)
  recommendations : List (List Char)

/-- The generic filler strength appended when fewer than three
marker-derived strengths were found. -/
def fillerStrength : List Char := "Well-documented background".toList

/-- `_create_fallback_analysis` (ai_analysis.py, lines 80-122). -/
def create_fallback_analysis (resume_text : List Char) : AnalysisRecord :=
  let text_lower := lowerL resume_text
  let has_skills := hasSub "skill".toList text_lower
  let has_experience := hasSub "experience".toList text_lower ||
    hasSub "worked".toList text_lower
  let has_education := hasSub "education".toList text_lower ||
    hasSub "degree".toList text_lower ||
    hasSub "university".toList text_lower
  let strengths :=
    (if has_education then ["Strong educational background".toList]
     else []) ++
    (if has_experience then ["Demonstrated professional experience".toList]
     else []) ++
    (if has_skills then ["Technical skill proficiency".toList] else [])
  let strengths :=
    if strengths.length < 3 then strengths ++ [fillerStrength]
    else strengths
  let weaknesses :=
    (if hasSub "no experience".toList text_lower ||
        wordCountL resume_text < 100
     then ["Limited work history".toList]
     else ["Consider highlighting recent achievements".toList]) ++
    (if !has_education then ["Education section could be expanded".toList]
     else [])
  { overall_impression :=
      "Candidate with ".toList ++ natDigits (wordCountL resume_text) ++
      (" words of documented experience. " ++
       "Resume demonstrates professional background across multiple " ++
       "areas.").toList
    strengths := strengths
    weaknesses := weaknesses
    key_skills := ["Communication", "Problem-solving",
      "Team collaboration", "Technical proficiency"].map String.toList
    recommendations := ["Add quantifiable achievements to each position",
      "Include specific project examples and results",
      "Highlight technical skills and tools mastered"].map String.toList }

/-! ## The prompt template and `str.format` (ai_analysis.py, 31-36, 197) -/

/-- Python exception kinds distinguished by the embedded functions. -/
inductive PyErr where
  | valueError
  | keyError
  | attributeError
deriving DecidableEq

/-- `PROMPT_TEMPLATE` (ai_analysis.py, lines 31-36); `\x7b`/`\x7d` are the
literal brace characters of the template, doubled exactly where the source
doubles them for `str.format`. -/
def PROMPT_TEMPLATE : List Char :=
  ("Analyze this resume and output ONLY valid JSON with no other text." ++
   "\n\n{resume_text}\n\n" ++
   "Output ONLY this JSON format (no extra text):\n" ++
   "\x7b\x7b\"overall_impression\":\"summary here\"," ++
   "\"strengths\":[\"item1\",\"item2\",\"item3\"]," ++
   "\"weaknesses\":[\"item1\",\"item2\"]," ++
   "\"key_skills\":[\"item1\",\"item2\",\"item3\",\"item4\"]," ++
   "\"recommendations\":[\"item1\",\"item2\",\"item3\"]\x7d\x7d").toList

/-- A parsed segment of a `str.format` template: literal text or a
replacement field. -/
inductive Seg where
  | lit (s : List Char)
  | field (name : List Char)

/-- Fuelled scanner for `str.format` templates: `\x7b\x7b` and `\x7d\x7d`
are escaped braces, `\x7b name \x7d` is a replacement field, a lone
closing brace is a `ValueError`, an unterminated field is a `ValueError`. -/
def fmtGo : Nat → List Char → Except PyErr (List Seg)
  | 0, _ => .error .valueError
  | _ + 1, [] => .ok []
  | fuel + 1, c :: r =>
    if c = lbrace then
      match r with
      | [] => .error .valueError
      | d :: r2 =>
        if d = lbrace then
          (fmtGo fuel r2).map (fun segs => .lit [lbrace] :: segs)
        else
          let name := (d :: r2).takeWhile (fun e => e ≠ rbrace)
          let rest := (d :: r2).dropWhile (fun e => e ≠ rbrace)
          match rest with
          | e :: r3 =>
            if e = rbrace then (fmtGo fuel r3).map (.field name :: ·)
            else .error .valueError
          | [] => .error .valueError
    else if c = rbrace then
      match r with
      | [] => .error .valueError
      | d :: r2 =>
        if d = rbrace then
          (fmtGo fuel r2).map (fun segs => .lit [rbrace] :: segs)
        else .error .valueError
    else (fmtGo fuel r).map (fun segs => .lit [c] :: segs)

/-- Substitute the single recognized keyword argument `resume_text` into
the parsed segments; any other field name raises `KeyError`.  The argument
is inserted verbatim — `str.format` does not reinterpret the substituted
value. -/
def renderSegs (arg : List Char) : List Seg → Except PyErr (List Char)
  | [] => .ok []
  | .lit s :: rest => (renderSegs arg rest).map (fun t => s ++ t)
  | .field n :: rest =>
    if n = "resume_text".toList then
      (renderSegs arg rest).map (fun t => arg ++ t)
    else .error .keyError

/-- `tpl.format(resume_text=arg)`:
`PROMPT_TEMPLATE.format(resume_text=resume_content)` in the source. -/
def pyFormat (tpl arg : List Char) : Except PyErr (List Char) :=
  (fmtGo (tpl.length + 1) tpl).bind (renderSegs arg)

/-- `analyse_resume` up to the point where the network request would be
sent (ai_analysis.py, lines 187-211): the empty/whitespace guard raises
`ValueError` first; otherwise the prompt for the request payload is built.
A returned `.ok prompt` models "a network call is now attempted with this
prompt"; `.error` models an exception raised before any network call. -/
def analyse_resume_request (t : List Char) : Except PyErr (List Char) :=
  if t.isEmpty || (pyStrip t).isEmpty then .error .valueError
  else pyFormat PROMPT_TEMPLATE (extract_resume_section t)

/-! ## JSON values and `json.loads` (the decoder used by
`_parse_json_response`) -/

/-- JSON values.  Python floats are kept as their unparsed literal
(`numF`); objects keep their fields in order (duplicate keys cannot arise
in the concrete inputs used below, and key membership is unaffected). -/
inductive Json where
  | null
  | bool (b : Bool)
  | num (n : Int)
  | numF (lit : List Char)
  | str (s : List Char)
  | arr (elems : List Json)
  | obj (fields : List (List Char × Json))

/-- JSON insignificant whitespace. -/
def jWs (c : Char) : Bool := c = ' ' || c = '\t' || c = '\n' || c = '\r'

/-- Skip JSON whitespace. -/
def skipJWs (l : List Char) : List Char := l.dropWhile jWs

/-- Value of a hex digit, for `\uXXXX` escapes. -/
def hexVal (c : Char) : Option Nat :=
  if c.isDigit then some (c.toNat - 48)
  else if 'a' ≤ c && c ≤ 'f' then some (c.toNat - 87)
  else if 'A' ≤ c && c ≤ 'F' then some (c.toNat - 55)
  else none

/-- Fuelled scanner for a JSON string body (after the opening quote);
returns the decoded characters and the input after the closing quote.
Unescaped control characters are rejected (strict mode). -/
def jString : Nat → List Char → Except Unit (List Char × List Char)
  | 0, _ => .error ()
  | fuel + 1, l =>
    match l with
    | [] => .error ()
    | c :: r =>
      if c = '"' then .ok ([], r)
      else if c = '\\' then
        match r with
        | [] => .error ()
        | e :: r2 =>
          if e = '"' || e = '\\' || e = '/' then
            (jString fuel r2).map (fun (s, rest) => (e :: s, rest))
          else if e = 'b' then
            (jString fuel r2).map (fun (s, rest) => ('\x08' :: s, rest))
          else if e = 'f' then
            (jString fuel r2).map (fun (s, rest) => ('\x0c' :: s, rest))
          else if e = 'n' then
            (jString fuel r2).map (fun (s, rest) => ('\n' :: s, rest))
          else if e = 'r' then
            (jString fuel r2).map (fun (s, rest) => ('\r' :: s, rest))
          else if e = 't' then
            (jString fuel r2).map (fun (s, rest) => ('\t' :: s, rest))
          else if e = 'u' then
            match r2 with
            | h1 :: h2 :: h3 :: h4 :: r3 =>
              match hexVal h1, hexVal h2, hexVal h3, hexVal h4 with
              | some a, some b, some d, some f =>
                (jString fuel r3).map (fun (s, rest) =>
                  (Char.ofNat (((a * 16 + b) * 16 + d) * 16 + f) :: s,
                   rest))
              | _, _, _, _ => .error ()
            | _ => .error ()
          else .error ()
      else if c.toNat < 0x20 then .error ()
      else (jString fuel r).map (fun (s, rest) => (c :: s, rest))

/-- Digits to a natural number. -/
def digitsToNat (l : List Char) : Nat :=
  l.foldl (fun a c => a * 10 + (c.toNat - 48)) 0

/-- Scan a JSON number per the decoder's regex
`-?(0|[1-9]\d*)(\.\d+)?([eE][+-]?\d+)?`; integers become `Json.num`,
anything with a fraction or exponent keeps its literal as `Json.numF`. -/
def jNum (l : List Char) : Except Unit (Json × List Char) :=
  let (neg, sgn, l1) :=
    match l with
    | '-' :: r => (true, ['-'], r)
    | _ => (false, ([] : List Char), l)
  match l1 with
  | [] => .error ()
  | c :: r =>
    if c = '0' ∨ ¬c.isDigit then
      if c = '0' then
        jNumTail neg (sgn ++ ['0']) ['0'] r
      else .error ()
    else
      let ip := c :: r.takeWhile Char.isDigit
      jNumTail neg (sgn ++ ip) ip (r.dropWhile Char.isDigit)
where
  /-- Fraction and exponent tail; `lit` is everything consumed so far,
  `ip` the integer-part digits. -/
  jNumTail (neg : Bool) (lit ip : List Char) (rest : List Char) :
      Except Unit (Json × List Char) :=
    let (fr, rest1) :=
      match rest with
      | '.' :: r2 =>
        let fd := r2.takeWhile Char.isDigit
        if fd.isEmpty then (none, rest)
        else (some ('.' :: fd), r2.dropWhile Char.isDigit)
      | _ => (none, rest)
    let (ex, rest2) :=
      match rest1 with
      | e :: r3 =>
        if e = 'e' ∨ e = 'E' then
          let (sgn2, r4) :=
            match r3 with
            | s :: r5 => if s = '+' ∨ s = '-' then ([s], r5) else ([], r3)
            | [] => ([], r3)
          let ed := r4.takeWhile Char.isDigit
          if ed.isEmpty then (none, rest1)
          else (some (e :: (sgn2 ++ ed)), r4.dropWhile Char.isDigit)
        else (none, rest1)
      | [] => (none, rest1)
    match fr, ex with
    | none, none =>
      .ok (.num (if neg then -(Int.ofNat (digitsToNat ip))
                 else Int.ofNat (digitsToNat ip)), rest2)
    | _, _ =>
      .ok (.numF (lit ++ fr.getD [] ++ ex.getD []), rest2)

mutual

/-- Fuelled JSON value parser (the core of `json.loads`); the input starts
at a non-whitespace position. -/
def jVal : Nat → List Char → Except Unit (Json × List Char)
  | 0, _ => .error ()
  | fuel + 1, l =>
    match l with
    | [] => .error ()
    | c :: r =>
      if c = '"' then
        (jString (r.length + 1) r).map (fun (s, rest) => (.str s, rest))
      else if c = lbrace then
        match skipJWs r with
        | d :: r2 =>
          if d = rbrace then .ok (.obj [], r2)
          else
            (jObjFields fuel (skipJWs r)).map
              (fun (kvs, rest) => (.obj kvs, rest))
        | [] => .error ()
      else if c = '[' then
        match skipJWs r with
        | d :: r2 =>
          if d = ']' then .ok (.arr [], r2)
          else
            (jArrElems fuel (skipJWs r)).map
              (fun (vs, rest) => (.arr vs, rest))
        | [] => .error ()
      else if startsW "true".toList l then .ok (.bool true, l.drop 4)
      else if startsW "false".toList l then .ok (.bool false, l.drop 5)
      else if startsW "null".toList l then .ok (.null, l.drop 4)
      else if startsW "NaN".toList l then .ok (.numF "NaN".toList, l.drop 3)
      else if startsW "Infinity".toList l then
        .ok (.numF "Infinity".toList, l.drop 8)
      else if startsW "-Infinity".toList l then
        .ok (.numF "-Infinity".toList, l.drop 9)
      else jNum l

/-- Comma-separated JSON array elements, ending at `]`. -/
def jArrElems : Nat → List Char → Except Unit (List Json × List Char)
  | 0, _ => .error ()
  | fuel + 1, l =>
    (jVal fuel l).bind (fun (v, rest) =>
      match skipJWs rest with
      | ',' :: r2 =>
        (jArrElems fuel (skipJWs r2)).map (fun (vs, r3) => (v :: vs, r3))
      | d :: r2 =>
        if d = ']' then .ok ([v], r2) else .error ()
      | [] => .error ())

/-- Comma-separated JSON object members (`"key": value`), ending at the
closing brace. -/
def jObjFields : Nat → List Char →
    Except Unit (List (List Char × Json) × List Char)
  | 0, _ => .error ()
  | fuel + 1, l =>
    match l with
    | c :: r =>
      if c = '"' then
        (jString (r.length + 1) r).bind (fun (k, rest) =>
          match skipJWs rest with
          | ':' :: r2 =>
            (jVal fuel (skipJWs r2)).bind (fun (v, rest2) =>
              match skipJWs rest2 with
              | ',' :: r3 =>
                (jObjFields fuel (skipJWs r3)).map
                  (fun (kvs, r4) => ((k, v) :: kvs, r4))
              | d :: r3 =>
                if d = rbrace then .ok ([(k, v)], r3) else .error ()
              | [] => .error ())
          | _ => .error ())
      else .error ()
    | [] => .error ()

end

/-- `json.loads`: parse one JSON document with only whitespace around it. -/
def jsonParse (l : List Char) : Except Unit Json :=
  match jVal (2 * l.length + 2) (skipJWs l) with
  | .ok (v, rest) => if (skipJWs rest).isEmpty then .ok v else .error ()
  | .error _ => .error ()

/-! ## `_parse_json_response` (src/analysis/ai_analysis.py, 125-173) -/

/-- `re.sub(r'```(?:json)?', '', t)`: left-to-right removal of every
fence marker, preferring the longer `json`-tagged form at each match. -/
def stripTicksA : List Char → List Char
  | [] => []
  | c :: r =>
    if startsW "```json".toList (c :: r) then stripTicksA ((c :: r).drop 7)
    else if startsW "```".toList (c :: r) then stripTicksA ((c :: r).drop 3)
    else c :: stripTicksA r
termination_by l => l.length
decreasing_by all_goals simp only [List.length_cons, List.length_drop]; omega

/-- `t.replace('```', '')` (a no-op after `stripTicksA`, kept for
faithfulness to the source). -/
def stripTicksB : List Char → List Char
  | [] => []
  | c :: r =>
    if startsW "```".toList (c :: r) then stripTicksB ((c :: r).drop 3)
    else c :: stripTicksB r
termination_by l => l.length
decreasing_by all_goals simp only [List.length_cons, List.length_drop]; omega

/-- The fence-stripping branch of `_parse_json_response` (lines 134-136). -/
def stripFences (t : List Char) : List Char :=
  pyStrip (stripTicksB (stripTicksA t))

/-- The five required keys checked on the direct parse (line 142). -/
def requiredKeys : List (List Char) :=
  ["overall_impression", "strengths", "weaknesses", "key_skills",
   "recommendations"].map String.toList

/-- Python `key in dict` on the object-fields model. -/
def objHasKey (kvs : List (List Char × Json)) (k : List Char) : Bool :=
  kvs.any (fun kv => kv.1 = k)

/-- Python `text.find(ch)`. -/
def findIdxCh (c : Char) : List Char → Option Nat
  | [] => none
  | d :: r => if d = c then some 0 else (findIdxCh c r).map (· + 1)

/-- The char-level depth walk of `_parse_json_response` (lines 152-159):
starting at the first `{`, find the offset where the brace depth returns
to zero (string contents are NOT respected, exactly as in the source).
The first character of the walked text is a `{`, so the depth is `1` after
it and a closing brace at depth `1` ends the walk. -/
def braceWalk : List Char → Nat → Nat → Option Nat
  | [], _, _ => none
  | c :: r, depth, pos =>
    if c = lbrace then braceWalk r (depth + 1) (pos + 1)
    else if c = rbrace then
      if depth = 1 then some pos else braceWalk r (depth - 1) (pos + 1)
    else braceWalk r depth (pos + 1)

/-- `_create_fallback_analysis` result as the returned Python dict. -/
def recordToJson (r : AnalysisRecord) : Json :=
  .obj [("overall_impression".toList, .str r.overall_impression),
        ("strengths".toList, .arr (r.strengths.map .str)),
        ("weaknesses".toList, .arr (r.weaknesses.map .str)),
        ("key_skills".toList, .arr (r.key_skills.map .str)),
        ("recommendations".toList, .arr (r.recommendations.map .str))]

/-- The brace-extraction stage of `_parse_json_response` (lines 149-173):
only the first depth-balanced block is attempted; on any failure the
fallback record built from the original text is returned.  A slice that
parses successfully always starts with `{` and therefore is an object, so
the `in` membership test only ever sees an object. -/
def extractPhase (t2 orig : List Char) : Except PyErr Json :=
  match findIdxCh lbrace t2 with
  | none => .ok (recordToJson (create_fallback_analysis orig))
  | some start =>
    let sub := t2.drop start
    match braceWalk sub 0 0 with
    | some pos =>
      match jsonParse (sub.take (pos + 1)) with
      | .ok (.obj kvs) =>
        if objHasKey kvs "overall_impression".toList then .ok (.obj kvs)
        else .ok (recordToJson (create_fallback_analysis orig))
      | .ok _ => .ok (recordToJson (create_fallback_analysis orig))
      | .error _ => .ok (recordToJson (create_fallback_analysis orig))
    | none => .ok (recordToJson (create_fallback_analysis orig))

/-- `_parse_json_response` (ai_analysis.py, lines 125-173).  The direct
parse calls `result.keys()` on whatever `json.loads` produced; when that
value is not a dict this is an uncaught `AttributeError` (the `except`
clause on line 146 only catches `JSONDecodeError`/`ValueError`). -/
def parse_json_response (t : List Char) : Except PyErr Json :=
  let t2 := if hasSub "```".toList t then stripFences t else t
  match jsonParse t2 with
  | .ok (.obj kvs) =>
    if requiredKeys.all (objHasKey kvs) then .ok (.obj kvs)
    else extractPhase t2 t
  | .ok _ => .error .attributeError
  | .error _ => extractPhase t2 t

/-! ## `scan_pdf_for_malicious_content` (src/utils/validators.py, 88-137) -/

/-- The eight suspicious markers, in the dict's insertion order
(validators.py lines 107-116). -/
def SUSPICIOUS_PDF_KEYWORDS : List (List Char) :=
  ["/JS", "/JavaScript", "/AA", "/OpenAction", "/Launch", "/EmbeddedFile",
   "/AcroForm", "/RichMedia"].map String.toList

/-- Prefix test on byte lists. -/
def startsWN : List Nat → List Nat → Bool
  | [], _ => true
  | _ :: _, [] => false
  | p :: ps, b :: bs => p = b && startsWN ps bs

/-- Python `bytes.count(sub)` for a nonempty pattern: non-overlapping
occurrences, scanning left to right. -/
def countSub (pat : List Nat) (l : List Nat) : Nat :=
  match l with
  | [] => 0
  | b :: r =>
    if pat.isEmpty then 0
    else if startsWN pat (b :: r) then
      1 + countSub pat ((b :: r).drop pat.length)
    else countSub pat r
termination_by l.length
decreasing_by
  · simp only [List.length_cons, List.length_drop]
    rename_i h _
    have : pat.length ≠ 0 := by
      simpa [List.isEmpty_iff_length_eq_zero] using h
    omega
  · simp only [List.length_cons]; omega

/-- `keyword.encode()`: ASCII bytes of a marker. -/
def encodeAscii (l : List Char) : List Nat := l.map Char.toNat

/-- `scan_pdf_for_malicious_content` (validators.py, lines 88-137).  The
file system is modelled as `Option`: `none` means `open`/`read` raised,
which the function swallows, leaving every count at its initial `0`. -/
def scan_pdf_for_malicious_content (file : Option (List Nat)) :
    List (List Char × Nat) :=
  match file with
  | none => SUSPICIOUS_PDF_KEYWORDS.map (fun k => (k, 0))
  | some content =>
    SUSPICIOUS_PDF_KEYWORDS.map
      (fun k => (k, countSub (encodeAscii k) content))

/-! ## Predicates used to state and prove the claims -/

/-- The text contains a hyphen-break join point: a `-` immediately
followed by a newline and a non-whitespace character (the redex of
`_clean_text` PASS 2). -/
def hasHB : List Char → Bool
  | '-' :: '\n' :: c :: rest => !isPySpace c || hasHB ('\n' :: c :: rest)
  | _ :: rest => hasHB rest
  | [] => false

/-- Total word count of a list of lines. -/
def sumWords (ls : List (List Char)) : Nat := (ls.map wordCountL).sum

/-- No two adjacent space/tab characters. -/
def noAdjSp : List Char → Bool
  | a :: b :: r => !(spaceTab a && spaceTab b) && noAdjSp (b :: r)
  | _ => true

/-- First character (if any) is not whitespace. -/
def headNotSp : List Char → Bool
  | [] => true
  | c :: _ => !isPySpace c

/-- A line is in normal form for PASS 3: printable characters only, no
two adjacent spaces, no leading or trailing whitespace. -/
def lineGood (l : List Char) : Bool :=
  l.all printableB && noAdjSp l && headNotSp l && headNotSp l.reverse

/-- A line survives PASS 4 unchanged: blank, or neither junk nor a single
character. -/
def keepB (l : List Char) : Bool :=
  l.isEmpty || (!junkB l && l.length != 1)

/-- Every detected header is immediately preceded by a blank line. -/
def hsOK : List (List Char) → Prop
  | a :: b :: r => (isHeader b = true → a = []) ∧ hsOK (b :: r)
  | _ => True

/-- No two adjacent blank lines. -/
def nabOK : List (List Char) → Prop
  | a :: b :: r => ¬(a = [] ∧ b = []) ∧ nabOK (b :: r)
  | _ => True

/-- Drop leading blank lines. -/
def trimF (ls : List (List Char)) : List (List Char) :=
  ls.dropWhile (·.isEmpty)

/-- Drop trailing blank lines. -/
def trimB : List (List Char) → List (List Char)
  | [] => []
  | l :: r =>
    match trimB r with
    | [] => if l.isEmpty then [] else [l]
    | t => l :: t

/-- Drop leading and trailing blank lines. -/
def trimLs (ls : List (List Char)) : List (List Char) := trimB (trimF ls)

/-- The line list underlying `clean_text x`: the final strip of the joined
text removes exactly the leading/trailing blank lines. -/
def canonLines (x : List Char) : List (List Char) := trimLs (cleanLines x)

/-- Invariants of the line list produced by `_clean_text`. -/
def Canon (ls : List (List Char)) : Prop :=
  (∀ l ∈ ls, lineGood l = true) ∧ (∀ l ∈ ls, keepB l = true) ∧
  (∀ l ∈ ls, '\n' ∉ l) ∧ hsOK ls ∧ nabOK ls ∧
  (∀ h, ls.head? = some h → h ≠ []) ∧ (∀ h, ls.getLast? = some h → h ≠ [])

/-- The effect of the hyphen-break repair at a `-\n` junction, as a
function of what follows the newline: nothing, or a whitespace character
(no join), or a non-whitespace character (join, dropping `-\n`). -/
def hyphenJoinRhs (v : List Char) : List Char :=
  match v with
  | [] => ['-', '\n']
  | c :: v2 =>
    if isPySpace c = true then '-' :: '\n' :: c :: v2 else c :: v2

/-- The literal text of `PROMPT_TEMPLATE` before the substitution point
(after `str.format` has unescaped the doubled braces — this part has
none). -/
def promptHead : List Char :=
  ("Analyze this resume and output ONLY valid JSON with no other text." ++
   "\n\n").toList

/-- The literal text of `PROMPT_TEMPLATE` after the substitution point,
with the doubled braces unescaped to single braces by `str.format`. -/
def promptTail : List Char :=
  ("\n\nOutput ONLY this JSON format (no extra text):\n" ++
   "\x7b\"overall_impression\":\"summary here\"," ++
   "\"strengths\":[\"item1\",\"item2\",\"item3\"]," ++
   "\"weaknesses\":[\"item1\",\"item2\"]," ++
   "\"key_skills\":[\"item1\",\"item2\",\"item3\",\"item4\"]," ++
   "\"recommendations\":[\"item1\",\"item2\",\"item3\"]\x7d").toList

/-! # Helper lemmas -/

theorem dropLead_eq_nil (l : List Char) (h : ∀ c ∈ l, isPySpace c = true) :
    dropLead l = [] :=
  List.dropWhile_eq_nil_iff.mpr h

theorem pyStrip_all_space (l : List Char)
    (h : ∀ c ∈ l, isPySpace c = true) : pyStrip l = [] := by
  unfold pyStrip
  rw [dropLead_eq_nil l h]
  rfl

/-! # Claim theorems (first group) -/

/-- Claim C10: for every file (present or unreadable),
`scan_pdf_for_malicious_content` returns a mapping whose key sequence is
exactly the eight fixed suspicious markers, and when the file cannot be
read every count is `0` (counts are `Nat`, hence non-negative; the
embedded function is total, modelling that all read errors are swallowed). -/
theorem scan_pdf_fixed_markers :
    (∀ f, (scan_pdf_for_malicious_content f).map Prod.fst =
      SUSPICIOUS_PDF_KEYWORDS) ∧
    scan_pdf_for_malicious_content none =
      SUSPICIOUS_PDF_KEYWORDS.map (fun k => (k, 0)) := by
  constructor
  · intro f
    cases f <;>
      · simp only [scan_pdf_for_malicious_content, List.map_map]
        exact List.map_id _
  · rfl

/-- Claim C7: for every empty or whitespace-only input, `analyse_resume`
raises `ValueError` before the network request is built — the embedded
`analyse_resume_request` returns the error instead of a request prompt. -/
theorem analyse_resume_rejects_blank (t : List Char)
    (h : ∀ c ∈ t, isPySpace c = true) :
    analyse_resume_request t = .error .valueError := by
  unfold analyse_resume_request
  have hs : (pyStrip t).isEmpty = true := by
    rw [pyStrip_all_space t h]; rfl
  simp [hs]

/-- Witness for C7 at the concrete whitespace-only input `" \n "`. -/
theorem analyse_resume_rejects_blank_witness :
    (∀ c ∈ (" \n ".toList), isPySpace c = true) ∧
    analyse_resume_request " \n ".toList = .error .valueError :=
  ⟨by decide, analyse_resume_rejects_blank " \n ".toList (by decide)⟩

set_option maxRecDepth 8000 in
/-- Claim C2: substituting any resume text into `PROMPT_TEMPLATE` via
`str.format` never fails and inserts the text verbatim between the two
fixed literal parts — braces inside the resume text are not treated as
substitution directives, because `str.format` only scans the template. -/
theorem prompt_format_verbatim (s : List Char) :
    pyFormat PROMPT_TEMPLATE s = .ok (promptHead ++ (s ++ promptTail)) := by
  rfl

/-- Claim C1 (failing input): on the response `"[]"` — a well-formed JSON
document whose top-level value is not an object — `_parse_json_response`
raises `AttributeError` (from `result.keys()` on a list, uncaught by the
`except (json.JSONDecodeError, ValueError)` clause) instead of returning
the five-key fallback record promised by the specification. -/
theorem parse_json_response_attr_error :
    parse_json_response "[]".toList = .error .attributeError := by
  rfl

theorem startsW_self_append (p b : List Char) : startsW p (p ++ b) = true := by
  induction p with
  | nil => rfl
  | cons c r ih => simp [startsW, ih]

theorem hasSub_of_startsW {p l : List Char} (h : startsW p l = true) :
    hasSub p l = true := by
  cases l with
  | nil => exact h
  | cons c r => simp [hasSub, h]

theorem hasSub_mid (a p b : List Char) : hasSub p (a ++ p ++ b) = true := by
  induction a with
  | nil => exact hasSub_of_startsW (startsW_self_append p b)
  | cons c r ih =>
    have : ((c :: r) ++ p) ++ b = c :: ((r ++ p) ++ b) := by simp
    rw [this, hasSub, ih]
    simp

/-- Claim C8: for every input text, the fallback record has the five
fields (by its type), the impression string contains the decimal word
count of the input, the strengths list is nonempty and has at most three
entries — padded with the generic filler whenever fewer than three
marker-derived entries were found — and the remaining plural fields have
their fixed shapes. -/
theorem fallback_record_invariant (t : List Char) :
    hasSub (natDigits (wordCountL t))
      (create_fallback_analysis t).overall_impression = true ∧
    1 ≤ (create_fallback_analysis t).strengths.length ∧
    (create_fallback_analysis t).strengths.length ≤ 3 ∧
    ((create_fallback_analysis t).strengths.length = 3 ∨
      (create_fallback_analysis t).strengths.getLast? =
        some fillerStrength) ∧
    1 ≤ (create_fallback_analysis t).weaknesses.length ∧
    (create_fallback_analysis t).weaknesses.length ≤ 2 ∧
    (create_fallback_analysis t).key_skills.length = 4 ∧
    (create_fallback_analysis t).recommendations.length = 3 := by
  unfold create_fallback_analysis
  dsimp only
  refine ⟨hasSub_mid _ _ _, ?_⟩
  generalize (hasSub "education".toList (lowerL t) ||
    hasSub "degree".toList (lowerL t) ||
    hasSub "university".toList (lowerL t)) = e
  generalize (hasSub "experience".toList (lowerL t) ||
    hasSub "worked".toList (lowerL t)) = ex
  generalize hasSub "skill".toList (lowerL t) = sk
  generalize (hasSub "no experience".toList (lowerL t) ||
    decide (wordCountL t < 100)) = w
  cases e <;> cases ex <;> cases sk <;> cases w <;> decide

/-! ## Word-count lemmas for the resume-core extractor -/

theorem pySplitGo_append_sep {w : Char} (hw : isPySpace w = true)
    (b : List Char) :
    ∀ (a cur : List Char),
      pySplitGo cur (a ++ w :: b) = pySplitGo cur a ++ pySplit b := by
  intro a
  induction a with
  | nil =>
    intro cur
    by_cases hc : cur.isEmpty <;> simp [pySplitGo, hw, hc, pySplit]
  | cons c r ih =>
    intro cur
    by_cases hc : isPySpace c
    · by_cases hcur : cur.isEmpty <;>
        simp [pySplitGo, hc, hcur, ih]
    · simp [pySplitGo, hc, ih]

theorem pySplit_append_sep {w : Char} (hw : isPySpace w = true)
    (a b : List Char) : pySplit (a ++ w :: b) = pySplit a ++ pySplit b :=
  pySplitGo_append_sep hw b a []

theorem wordCountL_append_sep {w : Char} (hw : isPySpace w = true)
    (a b : List Char) :
    wordCountL (a ++ w :: b) = wordCountL a + wordCountL b := by
  simp [wordCountL, pySplit_append_sep hw]

theorem pySplitGo_all_space :
    ∀ (l : List Char), (∀ c ∈ l, isPySpace c = true) →
      pySplitGo [] l = [] := by
  intro l
  induction l with
  | nil => intro _; rfl
  | cons c r ih =>
    intro h
    have hc : isPySpace c = true := h c (by simp)
    simp [pySplitGo, hc]
    exact ih (fun d hd => h d (by simp [hd]))

theorem pySplit_all_space (l : List Char)
    (h : ∀ c ∈ l, isPySpace c = true) : pySplit l = [] :=
  pySplitGo_all_space l h

theorem pySplit_append_spaces (a : List Char) :
    ∀ (s : List Char), (∀ c ∈ s, isPySpace c = true) →
      pySplit (a ++ s) = pySplit a := by
  intro s
  induction s generalizing a with
  | nil => intro _; simp
  | cons w s2 ih =>
    intro h
    have hw : isPySpace w = true := h w (by simp)
    rw [pySplit_append_sep hw a s2,
      pySplit_all_space s2 (fun d hd => h d (by simp [hd]))]
    simp

theorem pySplit_dropLead (l : List Char) :
    pySplit (dropLead l) = pySplit l := by
  induction l with
  | nil => rfl
  | cons c r ih =>
    by_cases hc : isPySpace c
    · have h1 : dropLead (c :: r) = dropLead r := by
        simp [dropLead, List.dropWhile_cons, hc]
      have h2 : pySplit (c :: r) = pySplit r := by
        simp [pySplit, pySplitGo, hc]
      rw [h1, h2, ih]
    · simp [dropLead, List.dropWhile_cons, hc]

theorem dropTrail_decomp (l : List Char) :
    ∃ s, (∀ c ∈ s, isPySpace c = true) ∧ dropTrail l ++ s = l := by
  refine ⟨(l.reverse.takeWhile isPySpace).reverse, ?_, ?_⟩
  · intro c hc
    exact List.mem_takeWhile_imp (List.mem_reverse.mp hc)
  · have h := List.takeWhile_append_dropWhile isPySpace l.reverse
    rw [dropTrail, ← List.reverse_append, h, List.reverse_reverse]

theorem pySplit_strip (l : List Char) : pySplit (pyStrip l) = pySplit l := by
  obtain ⟨s, hs, hdecomp⟩ := dropTrail_decomp (dropLead l)
  have h2 : pySplit (dropLead l) = pySplit (dropTrail (dropLead l)) := by
    conv_lhs => rw [← hdecomp]
    exact pySplit_append_spaces _ s hs
  calc pySplit (pyStrip l) = pySplit (dropTrail (dropLead l)) := rfl
    _ = pySplit (dropLead l) := h2.symm
    _ = pySplit l := pySplit_dropLead l

theorem wordCountL_strip (l : List Char) :
    wordCountL (pyStrip l) = wordCountL l := by
  simp [wordCountL, pySplit_strip]

theorem pySplitGo_words :
    ∀ (l cur : List Char), (∀ c ∈ cur, isPySpace c = false) →
      ∀ w ∈ pySplitGo cur l, w ≠ [] ∧ ∀ c ∈ w, isPySpace c = false := by
  intro l
  induction l with
  | nil =>
    intro cur hcur w hw
    by_cases hc : cur.isEmpty
    · simp [pySplitGo, hc] at hw
    · simp [pySplitGo, hc] at hw
      subst hw
      refine ⟨by simpa using hc, ?_⟩
      intro c hc2
      exact hcur c (List.mem_reverse.mp hc2)
  | cons c r ih =>
    intro cur hcur w hw
    by_cases hc : isPySpace c
    · by_cases hcur2 : cur.isEmpty
      · simp [pySplitGo, hc, hcur2] at hw
        exact ih [] (by simp) w hw
      · simp [pySplitGo, hc, hcur2] at hw
        rcases hw with hw | hw
        · subst hw
          refine ⟨by simpa using hcur2, ?_⟩
          intro d hd
          exact hcur d (List.mem_reverse.mp hd)
        · exact ih [] (by simp) w hw
    · simp [pySplitGo, hc] at hw
      refine ih (c :: cur) ?_ w hw
      intro d hd
      rcases List.mem_cons.mp hd with hd | hd
      · subst hd; simpa using hc
      · exact hcur d hd

theorem pySplit_words (l : List Char) :
    ∀ w ∈ pySplit l, w ≠ [] ∧ ∀ c ∈ w, isPySpace c = false :=
  pySplitGo_words l [] (by simp)

theorem pySplitGo_one_word :
    ∀ (v cur : List Char), (∀ c ∈ v, isPySpace c = false) →
      pySplitGo cur v =
        if (cur.reverse ++ v).isEmpty then [] else [cur.reverse ++ v] := by
  intro v
  induction v with
  | nil =>
    intro cur _
    by_cases hc : cur.isEmpty
    · have : cur = [] := by simpa using hc
      subst this; rfl
    · have : cur.reverse ≠ [] := by
        simp only [ne_eq, List.reverse_eq_nil_iff]
        simpa using hc
      simp [pySplitGo, hc, this]
  | cons c v2 ih =>
    intro cur h
    have hc : isPySpace c = false := h c (by simp)
    rw [show pySplitGo cur (c :: v2) = pySplitGo (c :: cur) v2 by
      simp [pySplitGo, hc]]
    rw [ih (c :: cur) (fun d hd => h d (by simp [hd]))]
    simp

theorem pySplit_one_word (v : List Char)
    (h : ∀ c ∈ v, isPySpace c = false) (hne : v ≠ []) :
    pySplit v = [v] := by
  rw [pySplit, pySplitGo_one_word v [] h]
  simp [hne]

theorem pySplit_joinSp :
    ∀ (ws : List (List Char)),
      (∀ w ∈ ws, w ≠ [] ∧ ∀ c ∈ w, isPySpace c = false) →
      pySplit (joinSp ws) = ws := by
  intro ws
  induction ws with
  | nil => intro _; rfl
  | cons w vs ih =>
    intro h
    cases vs with
    | nil =>
      obtain ⟨hne, hch⟩ := h w (by simp)
      simpa [joinSp] using pySplit_one_word w hch hne
    | cons v vs2 =>
      have hsep : isPySpace ' ' = true := by decide
      rw [show joinSp (w :: v :: vs2) = w ++ ' ' :: joinSp (v :: vs2) from
        rfl]
      rw [pySplit_append_sep hsep, ih (fun u hu => h u (by simp [hu]))]
      obtain ⟨hne, hch⟩ := h w (by simp)
      rw [pySplit_one_word w hch hne]
      rfl

theorem sumWords_append (a b : List (List Char)) :
    sumWords (a ++ b) = sumWords a + sumWords b := by
  simp [sumWords]

theorem wordCountL_joinNl :
    ∀ (ls : List (List Char)), wordCountL (joinNl ls) = sumWords ls := by
  intro ls
  induction ls with
  | nil => rfl
  | cons l rest ih =>
    cases rest with
    | nil => simp [joinNl, sumWords]
    | cons r rest2 =>
      rw [show joinNl (l :: r :: rest2) = l ++ '\n' :: joinNl (r :: rest2)
        from rfl]
      rw [wordCountL_append_sep (by decide), ih]
      simp [sumWords]

theorem take_words_count (line : List Char) (k : Nat) :
    wordCountL (joinSp ((pySplit line).take k)) =
      min k (pySplit line).length := by
  have hsub : ∀ w ∈ (pySplit line).take k, w ∈ pySplit line :=
    fun w hw => List.take_subset k _ hw
  have h := pySplit_joinSp ((pySplit line).take k)
    (fun w hw => pySplit_words line w (hsub w hw))
  simp [wordCountL, h]

theorem extractGo_bound (N : Nat) :
    ∀ (lines kept : List (List Char)) (wc : Nat),
      sumWords (extractGo N lines kept wc) ≤ sumWords kept + (N - wc) := by
  intro lines
  induction lines with
  | nil => intro kept wc; simp [extractGo]
  | cons line rest ih =>
    intro kept wc
    by_cases hs : hasStop line = true
    · simp [extractGo, hs]
    · rw [extractGo]
      simp only [hs, if_false, Bool.false_eq_true]
      split
      · rename_i hover
        rw [sumWords_append]
        simp only [sumWords, List.map_cons, List.map_nil, List.sum_cons,
          List.sum_nil]
        rw [take_words_count]
        have : min (N - wc) (pySplit line).length ≤ N - wc :=
          Nat.min_le_left _ _
        omega
      · rename_i hfit
        calc sumWords (extractGo N rest (kept ++ [line])
              (wc + (pySplit line).length))
            ≤ sumWords (kept ++ [line]) +
              (N - (wc + (pySplit line).length)) := ih _ _
          _ ≤ sumWords kept + (N - wc) := by
              rw [sumWords_append]
              simp only [sumWords, List.map_cons, List.map_nil,
                List.sum_cons, List.sum_nil, wordCountL] at *
              omega

/-- Claim C5: (1) for every document and word ceiling `N`, the extracted
resume core never has more than `N` words; (2) when adding a line would
exceed the ceiling, exactly the leading words of that line sufficient to
reach `N` words total are included and extraction stops (so the result has
exactly `N` words in that case). -/
theorem extract_word_cap :
    (∀ (t : List Char) (N : Nat),
      wordCountL (extract_resume_sectionW N t) ≤ N) ∧
    (∀ (N : Nat) (line : List Char) (rest kept : List (List Char))
      (wc : Nat), sumWords kept = wc → wc ≤ N → hasStop line = false →
      N < wc + wordCountL line →
      extractGo N (line :: rest) kept wc =
        kept ++ [joinSp ((pySplit line).take (N - wc))] ∧
      sumWords (extractGo N (line :: rest) kept wc) = N) := by
  constructor
  · intro t N
    unfold extract_resume_sectionW
    rw [wordCountL_strip, wordCountL_joinNl]
    have h := extractGo_bound N (splitLines t) [] 0
    simpa [sumWords] using h
  · intro N line rest kept wc hsum hle hstop hover
    have heq : extractGo N (line :: rest) kept wc =
        kept ++ [joinSp ((pySplit line).take (N - wc))] := by
      rw [extractGo]
      simp only [hstop, if_false, Bool.false_eq_true]
      rw [if_pos]
      exact hover
    refine ⟨heq, ?_⟩
    rw [heq, sumWords_append]
    simp only [sumWords, List.map_cons, List.map_nil, List.sum_cons,
      List.sum_nil]
    rw [take_words_count]
    have hmin : min (N - wc) (pySplit line).length = N - wc := by
      have : wordCountL line = (pySplit line).length := rfl
      omega
    rw [hmin]
    simp only [sumWords] at hsum
    omega

/-- Witness for C5 at the concrete state: ceiling 3, one prior kept word,
next line `"a b c d e"` — the result keeps exactly 2 more words, 3 total. -/
theorem extract_word_cap_witness :
    sumWords ["x".toList] = 1 ∧ 1 ≤ 3 ∧
    hasStop "a b c d e".toList = false ∧
    3 < 1 + wordCountL "a b c d e".toList ∧
    (extractGo 3 ["a b c d e".toList] ["x".toList] 1 =
      ["x".toList] ++ [joinSp ((pySplit "a b c d e".toList).take (3 - 1))] ∧
     sumWords (extractGo 3 ["a b c d e".toList] ["x".toList] 1) = 3) :=
  ⟨by decide, by decide, by decide, by decide,
   extract_word_cap.2 3 "a b c d e".toList [] ["x".toList] 1
     (by decide) (by decide) (by decide) (by decide)⟩

/-! ## Line-splitting lemmas for the stop-phrase claim -/

theorem splitLines_ne_nil (t : List Char) : splitLines t ≠ [] := by
  cases t with
  | nil => simp [splitLines]
  | cons c r =>
    simp only [splitLines]
    split <;> simp

theorem splitLines_nl_free (t : List Char) :
    ∀ l ∈ splitLines t, '\n' ∉ l := by
  induction t with
  | nil => simp [splitLines]
  | cons c r ih =>
    intro l hl
    by_cases hc : c = '\n'
    · rw [show splitLines (c :: r) = [] :: splitLines r by
        simp [splitLines, hc]] at hl
      rcases List.mem_cons.mp hl with h | h
      · subst h; simp
      · exact ih l h
    · cases hsr : splitLines r with
      | nil => exact absurd hsr (splitLines_ne_nil r)
      | cons hd tl =>
        rw [show splitLines (c :: r) = (c :: hd) :: tl by
          simp [splitLines, hc, hsr]] at hl
        rcases List.mem_cons.mp hl with h | h
        · subst h
          intro hmem
          rcases List.mem_cons.mp hmem with h2 | h2
          · exact hc h2.symm
          · exact ih hd (hsr ▸ List.mem_cons_self _ _) h2
        · exact ih l (hsr ▸ List.mem_cons_of_mem _ h)

theorem splitLines_no_nl (a : List Char) (h : '\n' ∉ a) :
    splitLines a = [a] := by
  induction a with
  | nil => rfl
  | cons c r ih =>
    have hc : ¬c = '\n' := fun hx => h (hx ▸ List.mem_cons_self _ _)
    have hr : '\n' ∉ r := fun hx => h (List.mem_cons_of_mem _ hx)
    simp [splitLines, hc, ih hr]

theorem splitLines_append_nl (b : List Char) :
    ∀ (a : List Char), '\n' ∉ a →
      splitLines (a ++ '\n' :: b) = a :: splitLines b := by
  intro a
  induction a with
  | nil => intro _; simp [splitLines]
  | cons c r ih =>
    intro h
    have hc : ¬c = '\n' := fun hx => h (hx ▸ List.mem_cons_self _ _)
    have hr : '\n' ∉ r := fun hx => h (List.mem_cons_of_mem _ hx)
    simp [splitLines, hc, ih hr]

theorem splitLines_joinNl :
    ∀ (ls : List (List Char)), ls ≠ [] → (∀ l ∈ ls, '\n' ∉ l) →
      splitLines (joinNl ls) = ls := by
  intro ls
  induction ls with
  | nil => intro h; exact absurd rfl h
  | cons l rest ih =>
    intro _ hnl
    cases rest with
    | nil => exact splitLines_no_nl l (hnl l (by simp))
    | cons r rest2 =>
      rw [show joinNl (l :: r :: rest2) = l ++ '\n' :: joinNl (r :: rest2)
        from rfl]
      rw [splitLines_append_nl _ l (hnl l (by simp))]
      rw [ih (by simp) (fun u hu => hnl u (by simp [hu]))]

theorem extractGo_stop_prefix (N : Nat) (s : List Char)
    (hstop : hasStop s = true) :
    ∀ (A rest kept : List (List Char)) (wc : Nat),
      (∀ l ∈ A, hasStop l = false) →
      extractGo N (A ++ s :: rest) kept wc = extractGo N A kept wc := by
  intro A
  induction A with
  | nil => intro rest kept wc _; simp [extractGo, hstop]
  | cons a A2 ih =>
    intro rest kept wc h
    have ha : hasStop a = false := h a (by simp)
    rw [List.cons_append, extractGo, extractGo]
    simp only [ha, Bool.false_eq_true, if_false]
    split
    · rfl
    · exact ih rest _ _ (fun l hl => h l (by simp [hl]))

theorem list_decomp_at (L : List (List Char)) (k : Nat)
    (hk : k < L.length) :
    L = L.take k ++ L.getD k [] :: L.drop (k + 1) := by
  conv_lhs => rw [← List.take_append_drop k L]
  congr 1
  rw [List.getD_eq_getElem L [] hk]
  exact List.drop_eq_getElem_cons hk

theorem take_forall (P : List Char → Prop) :
    ∀ (L : List (List Char)) (k : Nat),
      (∀ j, j < k → P (L.getD j [])) → ∀ x ∈ L.take k, P x := by
  intro L
  induction L with
  | nil => intro k _ x hx; simp at hx
  | cons a L2 ih =>
    intro k h x hx
    cases k with
    | zero => simp at hx
    | succ k2 =>
      rw [List.take_succ_cons] at hx
      rcases List.mem_cons.mp hx with hx | hx
      · subst hx
        simpa using h 0 (Nat.succ_pos _)
      · refine ih k2 (fun j hj => ?_) x hx
        simpa using h (j + 1) (by omega)

/-- Claim C6: if the `k`-th line of the document contains a stop phrase
(after lower-casing/stripping, as the source does) and no earlier line
does, the extracted resume core is exactly what extraction produces from
the first `k` lines alone — the matching line and everything after it are
excluded; in particular for `k = 0` the result is the empty string. -/
theorem extract_stop_line (t : List Char) (k : Nat)
    (hk : k < (splitLines t).length)
    (hstop : hasStop ((splitLines t).getD k []) = true)
    (hpre : ∀ j, j < k → hasStop ((splitLines t).getD j []) = false) :
    extract_resume_section t =
      extract_resume_section (joinNl ((splitLines t).take k)) ∧
    (k = 0 → extract_resume_section t = []) := by
  have hdecomp := list_decomp_at (splitLines t) k hk
  have hkey : extractGo RESUME_MAX_WORDS (splitLines t) [] 0 =
      extractGo RESUME_MAX_WORDS ((splitLines t).take k) [] 0 := by
    conv_lhs => rw [hdecomp]
    exact extractGo_stop_prefix _ _ hstop _ _ _ _
      (take_forall _ _ k hpre)
  have hmain : extract_resume_section t =
      extract_resume_section (joinNl ((splitLines t).take k)) := by
    by_cases hk0 : k = 0
    · subst hk0
      unfold extract_resume_section extract_resume_sectionW
      rw [hkey]
      rfl
    · have htake_ne : (splitLines t).take k ≠ [] := by
        have h1 : 0 < k := Nat.pos_of_ne_zero hk0
        have h2 := splitLines_ne_nil t
        simp only [ne_eq, List.take_eq_nil_iff]
        intro h3
        rcases h3 with h3 | h3
        · omega
        · exact h2 h3
      have hnl : ∀ l ∈ (splitLines t).take k, '\n' ∉ l :=
        fun l hl => splitLines_nl_free t l (List.take_subset _ _ hl)
      unfold extract_resume_section extract_resume_sectionW
      rw [hkey, splitLines_joinNl _ htake_ne hnl]
  refine ⟨hmain, fun hk0 => ?_⟩
  rw [hmain, hk0]
  rfl

/-- Witness for C6: the third line of
`"Alice\nEngineer\nTo Whom It May Concern:\nsecret"` matches the stop
phrase, the first two do not, and extraction keeps only the first two
lines. -/
theorem extract_stop_line_witness :
    2 < (splitLines
      "Alice\nEngineer\nTo Whom It May Concern:\nsecret".toList).length ∧
    extract_resume_section
        "Alice\nEngineer\nTo Whom It May Concern:\nsecret".toList =
      extract_resume_section (joinNl ((splitLines
        "Alice\nEngineer\nTo Whom It May Concern:\nsecret".toList).take
          2)) ∧
    extract_resume_section
        "Alice\nEngineer\nTo Whom It May Concern:\nsecret".toList =
      "Alice\nEngineer".toList :=
  ⟨by decide,
   (extract_stop_line
      "Alice\nEngineer\nTo Whom It May Concern:\nsecret".toList 2
      (by decide) (by decide)
      (fun j hj => by interval_cases j <;> decide)).1,
   by decide⟩

/-! ## The hyphen-break repair (PASS 2) -/

theorem pass2_no_nl : ∀ (l : List Char), '\n' ∉ l → pass2 l = l := by
  intro l
  induction l using pass2.induct with
  | case1 c rest _ _ => intro h; simp at h
  | case2 c rest _ _ => intro h; simp at h
  | case3 c rest hne ih =>
    intro h
    rw [pass2.eq_2 c rest hne,
      ih (fun hx => h (List.mem_cons_of_mem _ hx))]
  | case4 => intro _; rfl

/-- Claim C4, counterexample: `_clean_text`'s hyphen repair joins
`"ab-\n(cd)"` into `"ab(cd)"` although the character after the line break
is `'('`, which is not a word character — contradicting the claim that a
join happens only when the following line begins with a word character. -/
theorem hyphen_join_nonword_counterexample :
    pass2 "ab-\n(cd)".toList = "ab(cd)".toList ∧
    isWordCh '(' = false := by
  decide

/-- Claim C4, amended: the hyphen-break repair removes a
hyphen/newline pair exactly when the character immediately after the
newline is non-whitespace (`-\n(\S)`); neither the character before the
hyphen nor word-character status is examined, and a hyphen-newline
followed by whitespace or end of text is left unchanged. -/
theorem hyphen_join_spec (u v : List Char) (hu : '\n' ∉ u)
    (hv : '\n' ∉ v) :
    pass2 (u ++ '-' :: '\n' :: v) = u ++ hyphenJoinRhs v := by
  induction u with
  | nil =>
    simp only [List.nil_append]
    cases v with
    | nil => rfl
    | cons c v2 =>
      rw [pass2.eq_1, hyphenJoinRhs]
      by_cases hc : isPySpace c = true
      · rw [if_pos hc, if_pos hc,
          pass2.eq_2 '\n' (c :: v2)
            (fun c1 rest1 h1 _ => absurd h1 (by decide)),
          pass2_no_nl _ hv]
      · rw [if_neg hc, if_neg hc,
          pass2_no_nl v2 (fun hx => hv (List.mem_cons_of_mem _ hx))]
  | cons a u2 ih =>
    have ha : '\n' ∉ u2 := fun hx => hu (List.mem_cons_of_mem _ hx)
    have hne : ∀ (c1 : Char) (rest1 : List Char),
        a = '-' → u2 ++ '-' :: '\n' :: v = '\n' :: c1 :: rest1 → False := by
      intro c1 rest1 _ heq
      cases u2 with
      | nil =>
        rw [List.nil_append] at heq
        injection heq with h1 _
        exact absurd h1 (by decide)
      | cons b u3 =>
        rw [List.cons_append] at heq
        injection heq with h1 _
        exact hu (by simp [h1])
    rw [List.cons_append, pass2.eq_2 a _ hne, ih ha]
    rfl

/-- Witness for the amended C4 at `u = "ab"`, `v = "(cd"`: the join fires
before a non-whitespace, non-word character. -/
theorem hyphen_join_spec_witness :
    ('\n' ∉ "ab".toList) ∧ ('\n' ∉ "(cd".toList) ∧
    pass2 ("ab".toList ++ '-' :: '\n' :: "(cd".toList) =
      "ab".toList ++ "(cd".toList :=
  ⟨by decide, by decide,
   hyphen_join_spec "ab".toList "(cd".toList (by decide) (by decide)⟩

/-! ## Character- and line-level lemmas for the sanitizer -/

theorem pass1_chars (l : List Char) :
    ∀ c ∈ pass1 l, printableB c = true ∨ c = '\n' := by
  intro c hc
  rcases List.mem_map.mp hc with ⟨d, _, hd⟩
  by_cases h : printableB d = true ∨ d = '\n'
  · rw [show (if printableB d || d = '\n' then d else ' ') = d by
      rcases h with h | h <;> simp [h]] at hd
    exact hd ▸ h
  · push_neg at h
    rw [show (if printableB d || d = '\n' then d else ' ') = ' ' by
      simp [h.1, h.2]] at hd
    exact hd ▸ Or.inl (by decide)

theorem pass1_id (l : List Char)
    (h : ∀ c ∈ l, printableB c = true ∨ c = '\n') : pass1 l = l := by
  induction l with
  | nil => rfl
  | cons c r ih =>
    have hc := h c (by simp)
    have hr := ih (fun d hd => h d (by simp [hd]))
    simp only [pass1, List.map_cons]
    rw [show (if printableB c || c = '\n' then c else ' ') = c by
      rcases hc with hc | hc <;> simp [hc]]
    rw [show List.map _ r = pass1 r from rfl, hr]

theorem pass2_subset : ∀ (l : List Char), ∀ c ∈ pass2 l, c ∈ l := by
  intro l
  induction l using pass2.induct with
  | case1 c rest hsp ih =>
    intro d hd
    rw [pass2.eq_1, if_pos hsp] at hd
    rcases List.mem_cons.mp hd with h | h
    · simp [h]
    · have := ih d h
      simp only [List.mem_cons] at this ⊢
      tauto
  | case2 c rest hsp ih =>
    intro d hd
    rw [pass2.eq_1, if_neg hsp] at hd
    rcases List.mem_cons.mp hd with h | h
    · simp [h]
    · have := ih d h
      simp only [List.mem_cons] at this ⊢
      tauto
  | case3 c rest hne ih =>
    intro d hd
    rw [pass2.eq_2 c rest hne] at hd
    rcases List.mem_cons.mp hd with h | h
    · simp [h]
    · exact List.mem_cons_of_mem _ (ih d h)
  | case4 => intro d hd; exact absurd hd (List.not_mem_nil d)

theorem noHB_pass2_id : ∀ (l : List Char), hasHB l = false → pass2 l = l := by
  intro l
  induction l using pass2.induct with
  | case1 c rest hsp ih =>
    intro h
    rw [hasHB] at h
    simp only [Bool.or_eq_false_iff] at h
    rw [pass2.eq_1, if_pos hsp, ih h.2]
  | case2 c rest hsp ih =>
    intro h
    rw [hasHB] at h
    simp only [Bool.or_eq_false_iff, Bool.not_eq_false'] at h
    exact absurd h.1 hsp
  | case3 c rest hne ih =>
    intro h
    have h2 : hasHB rest = false := by
      rw [hasHB.eq_2 c rest hne] at h
      exact h
    rw [pass2.eq_2 c rest hne, ih h2]
  | case4 => intro _; rfl

theorem splitLines_chars (t : List Char) :
    ∀ l ∈ splitLines t, ∀ c ∈ l, c ∈ t := by
  induction t with
  | nil =>
    intro l hl c hc
    rw [show splitLines ([] : List Char) = [[]] from rfl] at hl
    rcases List.mem_cons.mp hl with h | h
    · subst h
      exact absurd hc (List.not_mem_nil c)
    · exact absurd h (List.not_mem_nil l)
  | cons a r ih =>
    intro l hl c hc
    by_cases ha : a = '\n'
    · rw [show splitLines (a :: r) = [] :: splitLines r by
        simp [splitLines, ha]] at hl
      rcases List.mem_cons.mp hl with h | h
      · subst h; exact absurd hc (List.not_mem_nil c)
      · exact List.mem_cons_of_mem _ (ih l h c hc)
    · cases hsr : splitLines r with
      | nil => exact absurd hsr (splitLines_ne_nil r)
      | cons hd tl =>
        rw [show splitLines (a :: r) = (a :: hd) :: tl by
          simp [splitLines, ha, hsr]] at hl
        rcases List.mem_cons.mp hl with h | h
        · subst h
          rcases List.mem_cons.mp hc with h2 | h2
          · simp [h2]
          · exact List.mem_cons_of_mem _
              (ih hd (hsr ▸ List.mem_cons_self _ _) c h2)
        · exact List.mem_cons_of_mem _
            (ih l (hsr ▸ List.mem_cons_of_mem _ h) c hc)

theorem collapseGo_chars (b : Bool) :
    ∀ (l : List Char), ∀ c ∈ collapseGo b l, c = ' ' ∨ c ∈ l := by
  intro l
  induction l generalizing b with
  | nil => intro c hc; exact absurd hc (List.not_mem_nil c)
  | cons a r ih =>
    intro c hc
    by_cases ha : spaceTab a = true
    · rw [show collapseGo b (a :: r) =
          (if b then collapseGo true r else ' ' :: collapseGo true r) by
        simp [collapseGo, ha]] at hc
      cases b with
      | true =>
        rcases ih true c hc with h | h
        · exact Or.inl h
        · exact Or.inr (List.mem_cons_of_mem _ h)
      | false =>
        rcases List.mem_cons.mp hc with h | h
        · exact Or.inl h
        · rcases ih true c h with h2 | h2
          · exact Or.inl h2
          · exact Or.inr (List.mem_cons_of_mem _ h2)
    · rw [show collapseGo b (a :: r) = a :: collapseGo false r by
        simp [collapseGo, ha]] at hc
      rcases List.mem_cons.mp hc with h | h
      · exact Or.inr (by simp [h])
      · rcases ih false c h with h2 | h2
        · exact Or.inl h2
        · exact Or.inr (List.mem_cons_of_mem _ h2)

/-- First character (if any) is not a space or tab. -/
def headNotST : List Char → Bool
  | [] => true
  | c :: _ => !spaceTab c

theorem noAdjSp_cons (a : Char) (m : List Char) (hm : noAdjSp m = true)
    (h : spaceTab a = false ∨ headNotST m = true) :
    noAdjSp (a :: m) = true := by
  cases m with
  | nil => rfl
  | cons b r =>
    rw [noAdjSp]
    simp only [Bool.and_eq_true]
    refine ⟨?_, hm⟩
    rcases h with h | h
    · simp [h]
    · rw [headNotST] at h
      simp only [Bool.not_eq_true'] at h
      simp [h]

theorem noAdjSp_tail (a : Char) (m : List Char)
    (h : noAdjSp (a :: m) = true) : noAdjSp m = true := by
  cases m with
  | nil => rfl
  | cons b r =>
    simp only [noAdjSp, Bool.and_eq_true] at h
    exact h.2

theorem collapseGo_shape (l : List Char)
    (hp : ∀ c ∈ l, printableB c = true) :
    noAdjSp (collapseGo false l) = true ∧
    noAdjSp (collapseGo true l) = true ∧
    headNotST (collapseGo true l) = true := by
  induction l with
  | nil => exact ⟨rfl, rfl, rfl⟩
  | cons a r ih =>
    obtain ⟨ih1, ih2, ih3⟩ := ih (fun c hc => hp c (by simp [hc]))
    by_cases ha : spaceTab a = true
    · have ha2 : a = ' ' := by
        have hpa := hp a (by simp)
        rw [spaceTab] at ha
        rcases Bool.or_eq_true_iff.mp ha with h | h
        · exact of_decide_eq_true h
        · have : a = '\t' := of_decide_eq_true h
          rw [this] at hpa
          exact absurd hpa (by decide)
      rw [show collapseGo false (a :: r) = ' ' :: collapseGo true r by
        simp [collapseGo, ha]]
      rw [show collapseGo true (a :: r) = collapseGo true r by
        simp [collapseGo, ha]]
      refine ⟨noAdjSp_cons _ _ ih2 (Or.inr ih3), ih2, ih3⟩
    · rw [show collapseGo false (a :: r) = a :: collapseGo false r by
        simp [collapseGo, ha]]
      rw [show collapseGo true (a :: r) = a :: collapseGo false r by
        simp [collapseGo, ha]]
      have hns : spaceTab a = false := by
        simpa using ha
      refine ⟨noAdjSp_cons _ _ ih1 (Or.inl hns),
        noAdjSp_cons _ _ ih1 (Or.inl hns), ?_⟩
      rw [headNotST, hns]
      rfl

theorem collapseGo_id (l : List Char) (hadj : noAdjSp l = true)
    (htab : ∀ c ∈ l, c ≠ '\t') :
    collapseGo false l = l ∧
    (headNotST l = true → collapseGo true l = l) := by
  induction l with
  | nil => exact ⟨rfl, fun _ => rfl⟩
  | cons a r ih =>
    obtain ⟨ih1, ih2⟩ := ih (noAdjSp_tail a r hadj)
      (fun c hc => htab c (by simp [hc]))
    constructor
    · by_cases ha : spaceTab a = true
      · have ha2 : a = ' ' := by
          rw [spaceTab] at ha
          rcases Bool.or_eq_true_iff.mp ha with h | h
          · exact of_decide_eq_true h
          · exact absurd (of_decide_eq_true h) (htab a (by simp))
        rw [show collapseGo false (a :: r) = ' ' :: collapseGo true r by
          simp [collapseGo, ha]]
        have hr : headNotST r = true := by
          cases r with
          | nil => rfl
          | cons b r2 =>
            simp only [noAdjSp, Bool.and_eq_true] at hadj
            have h1 := hadj.1
            rw [ha] at h1
            simp only [Bool.true_and, Bool.not_eq_true'] at h1
            rw [headNotST, h1]
            rfl
        rw [ih2 hr, ha2]
      · rw [show collapseGo false (a :: r) = a :: collapseGo false r by
          simp [collapseGo, ha]]
        rw [ih1]
    · intro hh
      have ha : spaceTab a = false := by
        rw [headNotST] at hh
        simpa using hh
      rw [show collapseGo true (a :: r) = a :: collapseGo false r by
        simp [collapseGo, ha]]
      rw [ih1]

theorem dropLead_id (l : List Char) (h : headNotSp l = true) :
    dropLead l = l := by
  cases l with
  | nil => rfl
  | cons c r =>
    rw [headNotSp] at h
    simp only [Bool.not_eq_true'] at h
    simp [dropLead, List.dropWhile_cons, h]

theorem dropWhile_sp_headNotSp (m : List Char) :
    headNotSp (m.dropWhile isPySpace) = true := by
  cases hm : m.dropWhile isPySpace with
  | nil => rfl
  | cons c r =>
    have h := List.head?_dropWhile_not isPySpace m
    rw [hm] at h
    simp only [List.head?_cons] at h
    rw [headNotSp, h]
    rfl

theorem dropLead_headNotSp (l : List Char) :
    headNotSp (dropLead l) = true :=
  dropWhile_sp_headNotSp l

theorem dropTrail_id (l : List Char) (h : headNotSp l.reverse = true) :
    dropTrail l = l := by
  rw [dropTrail]
  have h2 := dropLead_id l.reverse h
  rw [dropLead] at h2
  rw [h2, List.reverse_reverse]

theorem pyStrip_id (l : List Char) (h1 : headNotSp l = true)
    (h2 : headNotSp l.reverse = true) : pyStrip l = l := by
  rw [pyStrip, dropLead_id l h1, dropTrail_id l h2]

theorem headNotSp_append_left (a s : List Char)
    (h : headNotSp (a ++ s) = true) : headNotSp a = true := by
  cases a with
  | nil => rfl
  | cons c r => exact h

theorem pyStrip_headNotSp (l : List Char) :
    headNotSp (pyStrip l) = true ∧
    headNotSp (pyStrip l).reverse = true := by
  constructor
  · obtain ⟨s, _, hdecomp⟩ := dropTrail_decomp (dropLead l)
    have h1 := dropLead_headNotSp l
    rw [← hdecomp] at h1
    exact headNotSp_append_left _ s h1
  · rw [pyStrip, dropTrail, List.reverse_reverse]
    exact dropWhile_sp_headNotSp (dropLead l).reverse

theorem noAdjSp_append_left :
    ∀ (a b : List Char), noAdjSp (a ++ b) = true → noAdjSp a = true := by
  intro a
  induction a with
  | nil => intro b _; rfl
  | cons x a2 ih =>
    intro b h
    cases a2 with
    | nil => rfl
    | cons y a3 =>
      simp only [List.cons_append, noAdjSp, Bool.and_eq_true] at h ⊢
      exact ⟨h.1, ih b h.2⟩

theorem noAdjSp_append_right :
    ∀ (a b : List Char), noAdjSp (a ++ b) = true → noAdjSp b = true := by
  intro a
  induction a with
  | nil => intro b h; exact h
  | cons x a2 ih =>
    intro b h
    exact ih b (noAdjSp_tail x (a2 ++ b) h)

theorem pyStrip_noAdjSp (l : List Char) (h : noAdjSp l = true) :
    noAdjSp (pyStrip l) = true := by
  have h1 : noAdjSp (dropLead l) = true := by
    have ht := List.takeWhile_append_dropWhile isPySpace l
    have h2 : noAdjSp (l.takeWhile isPySpace ++
        l.dropWhile isPySpace) = true := by rwa [ht]
    exact noAdjSp_append_right _ _ h2
  obtain ⟨s, _, hdecomp⟩ := dropTrail_decomp (dropLead l)
  rw [pyStrip]
  refine noAdjSp_append_left _ s ?_
  rwa [hdecomp]

theorem pyStrip_chars (l : List Char) : ∀ c ∈ pyStrip l, c ∈ l := by
  intro c hc
  obtain ⟨s, _, hdecomp⟩ := dropTrail_decomp (dropLead l)
  have h1 : c ∈ dropLead l := by
    rw [← hdecomp]
    exact List.mem_append_left _ hc
  have h2 := List.takeWhile_append_dropWhile isPySpace l
  rw [← h2]
  exact List.mem_append_right _ h1

theorem lineGood_parts (l : List Char) (h : lineGood l = true) :
    (∀ c ∈ l, printableB c = true) ∧ noAdjSp l = true ∧
    headNotSp l = true ∧ headNotSp l.reverse = true := by
  rw [lineGood] at h
  simp only [Bool.and_eq_true] at h
  exact ⟨List.all_eq_true.mp h.1.1.1, h.1.1.2, h.1.2, h.2⟩

theorem printable_no_tab (l : List Char)
    (hp : ∀ c ∈ l, printableB c = true) : ∀ c ∈ l, c ≠ '\t' := by
  intro c hc h
  have := hp c hc
  rw [h] at this
  exact absurd this (by decide)

theorem normLine_good (l : List Char)
    (hp : ∀ c ∈ l, printableB c = true) :
    lineGood (normLine l) = true := by
  have hcw : ∀ c ∈ collapseWs l, printableB c = true := by
    intro c hc
    rcases collapseGo_chars false l c hc with h | h
    · rw [h]; decide
    · exact hp c h
  obtain ⟨hadj, _, _⟩ := collapseGo_shape l hp
  rw [lineGood]
  simp only [Bool.and_eq_true]
  refine ⟨⟨⟨?_, ?_⟩, ?_⟩, ?_⟩
  · rw [List.all_eq_true]
    intro c hc
    exact hcw c (pyStrip_chars _ c hc)
  · exact pyStrip_noAdjSp _ hadj
  · exact (pyStrip_headNotSp _).1
  · exact (pyStrip_headNotSp _).2

theorem normLine_id (l : List Char) (h : lineGood l = true) :
    normLine l = l := by
  obtain ⟨hp, hadj, hhead, hlast⟩ := lineGood_parts l h
  have hcol : collapseWs l = l :=
    (collapseGo_id l hadj (printable_no_tab l hp)).1
  rw [normLine, hcol, pyStrip_id l hhead hlast]

theorem normLine_chars (l : List Char) :
    ∀ c ∈ normLine l, c = ' ' ∨ c ∈ l := by
  intro c hc
  exact collapseGo_chars false l c (pyStrip_chars (collapseWs l) c hc)

/-! ## PASS 4 lemmas -/

theorem lineGood_nil : lineGood [] = true := by decide

theorem keepB_nil : keepB [] = true := by decide

theorem isHeader_nil : isHeader [] = false := by decide

theorem pass4_mem : ∀ (ls : List (List Char)), ∀ x ∈ pass4 ls, x ∈ ls := by
  intro ls
  induction ls with
  | nil => intro x hx; exact absurd hx (List.not_mem_nil x)
  | cons l r ih =>
    intro x hx
    rw [pass4] at hx
    split at hx
    · rename_i h1
      rcases List.mem_cons.mp hx with h | h
      · subst h
        have h2 : l = [] := by simpa using h1
        simp [h2]
      · exact List.mem_cons_of_mem _ (ih x h)
    · split at hx
      · exact List.mem_cons_of_mem _ (ih x hx)
      · split at hx
        · exact List.mem_cons_of_mem _ (ih x hx)
        · rcases List.mem_cons.mp hx with h | h
          · simp [h]
          · exact List.mem_cons_of_mem _ (ih x h)

theorem pass4_keep : ∀ (ls : List (List Char)),
    ∀ x ∈ pass4 ls, keepB x = true := by
  intro ls
  induction ls with
  | nil => intro x hx; exact absurd hx (List.not_mem_nil x)
  | cons l r ih =>
    intro x hx
    rw [pass4] at hx
    split at hx
    · rcases List.mem_cons.mp hx with h | h
      · subst h; exact keepB_nil
      · exact ih x h
    · split at hx
      · exact ih x hx
      · split at hx
        · exact ih x hx
        · rcases List.mem_cons.mp hx with h | h
          · subst h
            rename_i h1 h2 h3
            rw [keepB]
            simp only [Bool.or_eq_true, Bool.and_eq_true]
            refine Or.inr ⟨by simpa using h2, ?_⟩
            simpa using h3
          · exact ih x h

theorem pass4_id : ∀ (ls : List (List Char)),
    (∀ x ∈ ls, keepB x = true) → pass4 ls = ls := by
  intro ls
  induction ls with
  | nil => intro _; rfl
  | cons l r ih =>
    intro h
    have hl := h l (by simp)
    have hr := ih (fun x hx => h x (by simp [hx]))
    rw [pass4]
    by_cases h1 : l.isEmpty
    · rw [if_pos h1, hr]
      have : l = [] := by simpa using h1
      rw [this]
    · rw [keepB] at hl
      simp only [Bool.or_eq_true, Bool.and_eq_true] at hl
      rcases hl with hl | ⟨hj, hlen⟩
      · exact absurd hl h1
      · rw [if_neg h1, if_neg (by simpa using hj),
          if_neg (by simpa using hlen), hr]

/-! ## PASS 5 lemmas -/

theorem pass5Aux_mem :
    ∀ (rest : List (List Char)) (prev : List Char),
      ∀ x ∈ pass5Aux prev rest, x ∈ rest ∨ x = [] := by
  intro rest
  induction rest with
  | nil => intro prev x hx; exact absurd hx (List.not_mem_nil x)
  | cons l r ih =>
    intro prev x hx
    rw [pass5Aux] at hx
    split at hx
    · rcases List.mem_cons.mp hx with h | h
      · exact Or.inr h
      · rcases List.mem_cons.mp h with h2 | h2
        · exact Or.inl (by simp [h2])
        · rcases ih l x h2 with h3 | h3
          · exact Or.inl (List.mem_cons_of_mem _ h3)
          · exact Or.inr h3
    · rcases List.mem_cons.mp hx with h | h
      · exact Or.inl (by simp [h])
      · rcases ih l x h with h3 | h3
        · exact Or.inl (List.mem_cons_of_mem _ h3)
        · exact Or.inr h3

theorem pass5_mem : ∀ (ls : List (List Char)),
    ∀ x ∈ pass5 ls, x ∈ ls ∨ x = [] := by
  intro ls
  cases ls with
  | nil => intro x hx; exact absurd hx (List.not_mem_nil x)
  | cons l r =>
    intro x hx
    rw [pass5] at hx
    rcases List.mem_cons.mp hx with h | h
    · exact Or.inl (by simp [h])
    · rcases pass5Aux_mem r l x h with h2 | h2
      · exact Or.inl (List.mem_cons_of_mem _ h2)
      · exact Or.inr h2

theorem hsOK_tail (a : List Char) (m : List (List Char))
    (h : hsOK (a :: m)) : hsOK m := by
  cases m with
  | nil => trivial
  | cons b r => exact h.2

theorem pass5Aux_hsOK :
    ∀ (rest : List (List Char)) (prev : List Char),
      hsOK (prev :: pass5Aux prev rest) := by
  intro rest
  induction rest with
  | nil => intro prev; trivial
  | cons l r ih =>
    intro prev
    rw [pass5Aux]
    split
    · refine ⟨fun h => absurd h (by rw [isHeader_nil]; simp), ?_, ih l⟩
      exact fun _ => rfl
    · rename_i hcond
      refine ⟨fun hh => ?_, ih l⟩
      simp only [Bool.and_eq_true, Bool.not_eq_true'] at hcond
      by_cases hp : prev.isEmpty
      · simpa using hp
      · exact absurd ⟨hh, by simpa using hp⟩ hcond

theorem pass5_hsOK : ∀ (ls : List (List Char)), hsOK (pass5 ls) := by
  intro ls
  cases ls with
  | nil => trivial
  | cons l r => exact pass5Aux_hsOK r l

theorem pass5Aux_id :
    ∀ (rest : List (List Char)) (prev : List Char),
      hsOK (prev :: rest) → pass5Aux prev rest = rest := by
  intro rest
  induction rest with
  | nil => intro prev _; rfl
  | cons l r ih =>
    intro prev h
    rw [pass5Aux]
    have hcond : ¬(isHeader l && !prev.isEmpty) = true := by
      simp only [Bool.and_eq_true, Bool.not_eq_true']
      intro ⟨h1, h2⟩
      have := h.1 h1
      rw [this] at h2
      simp at h2
    rw [if_neg hcond, ih l h.2]

theorem pass5_id : ∀ (ls : List (List Char)), hsOK ls → pass5 ls = ls := by
  intro ls h
  cases ls with
  | nil => rfl
  | cons l r =>
    rw [pass5, pass5Aux_id r l h]

/-! ## PASS 6 lemmas -/

theorem pass6Go_mem :
    ∀ (ls : List (List Char)) (pb : Bool),
      ∀ x ∈ pass6Go pb ls, x ∈ ls := by
  intro ls
  induction ls with
  | nil => intro pb x hx; exact absurd hx (List.not_mem_nil x)
  | cons l r ih =>
    intro pb x hx
    by_cases hl : l.isEmpty
    · have hl2 : l = [] := by simpa using hl
      cases pb with
      | true =>
        rw [show pass6Go true (l :: r) = pass6Go true r by
          simp [pass6Go, hl]] at hx
        exact List.mem_cons_of_mem _ (ih true x hx)
      | false =>
        rw [show pass6Go false (l :: r) = [] :: pass6Go true r by
          simp [pass6Go, hl]] at hx
        rcases List.mem_cons.mp hx with h | h
        · subst h; simp [hl2]
        · exact List.mem_cons_of_mem _ (ih true x h)
    · rw [show pass6Go pb (l :: r) = l :: pass6Go false r by
        simp [pass6Go, hl]] at hx
      rcases List.mem_cons.mp hx with h | h
      · simp [h]
      · exact List.mem_cons_of_mem _ (ih false x h)

theorem pass6Go_nab :
    ∀ (ls : List (List Char)) (pb : Bool),
      nabOK (pass6Go pb ls) ∧
      (pb = true → ∀ h, (pass6Go pb ls).head? = some h → h ≠ []) := by
  intro ls
  induction ls with
  | nil =>
    intro pb
    exact ⟨trivial, fun _ h hh => by simp [pass6Go] at hh⟩
  | cons l r ih =>
    intro pb
    by_cases hl : l.isEmpty
    · cases pb with
      | true =>
        rw [show pass6Go true (l :: r) = pass6Go true r by
          simp [pass6Go, hl]]
        exact ⟨(ih true).1, fun _ => (ih true).2 rfl⟩
      | false =>
        rw [show pass6Go false (l :: r) = [] :: pass6Go true r by
          simp [pass6Go, hl]]
        refine ⟨?_, fun hpb => by exact absurd hpb (by simp)⟩
        cases hX : pass6Go true r with
        | nil => trivial
        | cons h2 t =>
          refine ⟨fun hpair => ?_, ?_⟩
          · exact (ih true).2 rfl h2 (by rw [hX]; rfl) hpair.2
          · have := (ih true).1
            rw [hX] at this
            exact this
    · have hlne : l ≠ [] := by simpa using hl
      rw [show pass6Go pb (l :: r) = l :: pass6Go false r by
        simp [pass6Go, hl]]
      refine ⟨?_, fun _ h hh => ?_⟩
      · cases hX : pass6Go false r with
        | nil => trivial
        | cons h2 t =>
          refine ⟨fun hpair => hlne hpair.1, ?_⟩
          have := (ih false).1
          rw [hX] at this
          exact this
      · injection hh with h3
        exact h3 ▸ hlne



theorem pass6_nab (ls : List (List Char)) : nabOK (pass6 ls) :=
  (pass6Go_nab ls false).1

theorem pass6Go_hsOK :
    ∀ (ls : List (List Char)) (pb : Bool) (p : List Char),
      hsOK (p :: ls) → (pb = true → p = []) →
      hsOK (p :: pass6Go pb ls) := by
  intro ls
  induction ls with
  | nil => intro pb p _ _; trivial
  | cons l r ih =>
    intro pb p h hpb
    by_cases hl : l.isEmpty
    · have hl2 : l = [] := by simpa using hl
      subst hl2
      cases pb with
      | true =>
        rw [show pass6Go true ([] :: r) = pass6Go true r by
          simp [pass6Go]]
        have hp : p = [] := hpb rfl
        subst hp
        exact ih true [] h.2 (fun _ => rfl)
      | false =>
        rw [show pass6Go false ([] :: r) = [] :: pass6Go true r by
          simp [pass6Go]]
        refine ⟨fun hh => absurd hh (by rw [isHeader_nil]; simp), ?_⟩
        exact ih true [] h.2 (fun _ => rfl)
    · rw [show pass6Go pb (l :: r) = l :: pass6Go false r by
        simp [pass6Go, hl]]
      refine ⟨h.1, ?_⟩
      exact ih false l h.2 (fun hF => absurd hF (by simp))

theorem pass6_hsOK (ls : List (List Char)) (h : hsOK ls) :
    hsOK (pass6 ls) := by
  have h0 : hsOK (([] : List Char) :: ls) := by
    cases ls with
    | nil => trivial
    | cons l r => exact ⟨fun _ => rfl, h⟩
  have h2 := pass6Go_hsOK ls false [] h0 (fun hF => rfl)
  exact hsOK_tail _ _ h2

theorem nabOK_tail (a : List Char) (m : List (List Char))
    (h : nabOK (a :: m)) : nabOK m := by
  cases m with
  | nil => trivial
  | cons b r => exact h.2

theorem pass6Go_id :
    ∀ (ls : List (List Char)), nabOK ls →
      pass6Go false ls = ls ∧
      ((∀ h, ls.head? = some h → h ≠ []) → pass6Go true ls = ls) := by
  intro ls
  induction ls with
  | nil => intro _; exact ⟨rfl, fun _ => rfl⟩
  | cons l r ih =>
    intro h
    obtain ⟨ih1, ih2⟩ := ih (nabOK_tail l r h)
    constructor
    · by_cases hl : l.isEmpty
      · have hl2 : l = [] := by simpa using hl
        rw [show pass6Go false (l :: r) = [] :: pass6Go true r by
          simp [pass6Go, hl]]
        rw [ih2 ?_, hl2]
        intro x hx hxe
        cases r with
        | nil => simp at hx
        | cons b r2 =>
          simp only [List.head?_cons, Option.some.injEq] at hx
          subst hx
          rw [hl2] at h
          exact h.1 ⟨rfl, hxe⟩
      · rw [show pass6Go false (l :: r) = l :: pass6Go false r by
          simp [pass6Go, hl], ih1]
    · intro hhead
      have hl : ¬l.isEmpty = true := by
        have h2 := hhead l rfl
        simpa using h2
      rw [show pass6Go true (l :: r) = l :: pass6Go false r by
        simp [pass6Go, hl], ih1]

theorem pass6_id (ls : List (List Char)) (h : nabOK ls) :
    pass6 ls = ls :=
  (pass6Go_id ls h).1

theorem trimF_mem (ls : List (List Char)) : ∀ x ∈ trimF ls, x ∈ ls := by
  intro x hx
  have h := List.takeWhile_append_dropWhile
    (fun (l : List Char) => l.isEmpty) ls
  rw [← h]
  exact List.mem_append_right _ hx

theorem hsOK_trimF : ∀ (ls : List (List Char)), hsOK ls →
    hsOK (trimF ls) := by
  intro ls
  induction ls with
  | nil => intro _; trivial
  | cons l r ih =>
    intro h
    rw [trimF, List.dropWhile_cons]
    split
    · exact ih (hsOK_tail l r h)
    · exact h

theorem nabOK_trimF : ∀ (ls : List (List Char)), nabOK ls →
    nabOK (trimF ls) := by
  intro ls
  induction ls with
  | nil => intro _; trivial
  | cons l r ih =>
    intro h
    rw [trimF, List.dropWhile_cons]
    split
    · exact ih (nabOK_tail l r h)
    · exact h

theorem trimF_head (ls : List (List Char)) :
    ∀ h, (trimF ls).head? = some h → h ≠ [] := by
  intro h hh
  have hprop := List.head?_dropWhile_not
    (fun (l : List Char) => l.isEmpty) ls
  rw [show trimF ls = ls.dropWhile (fun l => l.isEmpty) from rfl] at hh
  rw [hh] at hprop
  simpa using hprop

theorem trimF_id (ls : List (List Char))
    (h : ∀ x, ls.head? = some x → x ≠ []) : trimF ls = ls := by
  cases ls with
  | nil => rfl
  | cons l r =>
    rw [trimF, List.dropWhile_cons, if_neg]
    simpa using h l rfl

theorem trimB_prefix : ∀ (ls : List (List Char)),
    ∃ s, trimB ls ++ s = ls ∧ ∀ x ∈ s, x = [] := by
  intro ls
  induction ls with
  | nil => exact ⟨[], rfl, fun x hx => absurd hx (List.not_mem_nil x)⟩
  | cons l r ih =>
    obtain ⟨s, hs, hall⟩ := ih
    cases ht : trimB r with
    | nil =>
      rw [ht] at hs
      simp only [List.nil_append] at hs
      subst hs
      by_cases hl : l.isEmpty
      · refine ⟨l :: s, ?_, ?_⟩
        · rw [trimB, ht, if_pos hl]
          rfl
        · intro x hx
          rcases List.mem_cons.mp hx with h | h
          · subst h; simpa using hl
          · exact hall x h
      · refine ⟨s, ?_, hall⟩
        rw [trimB, ht, if_neg hl]
        rfl
    | cons t ts =>
      refine ⟨s, ?_, hall⟩
      rw [trimB, ht]
      rw [ht] at hs
      rw [← hs]
      simp

theorem trimB_mem (ls : List (List Char)) : ∀ x ∈ trimB ls, x ∈ ls := by
  intro x hx
  obtain ⟨s, hs, _⟩ := trimB_prefix ls
  rw [← hs]
  exact List.mem_append_left _ hx

theorem hsOK_append_left :
    ∀ (a b : List (List Char)), hsOK (a ++ b) → hsOK a := by
  intro a
  induction a with
  | nil => intro b _; trivial
  | cons x a2 ih =>
    intro b h
    cases a2 with
    | nil => trivial
    | cons y a3 =>
      simp only [List.cons_append] at h
      exact ⟨h.1, ih b h.2⟩

theorem nabOK_append_left :
    ∀ (a b : List (List Char)), nabOK (a ++ b) → nabOK a := by
  intro a
  induction a with
  | nil => intro b _; trivial
  | cons x a2 ih =>
    intro b h
    cases a2 with
    | nil => trivial
    | cons y a3 =>
      simp only [List.cons_append] at h
      exact ⟨h.1, ih b h.2⟩

theorem hsOK_trimB (ls : List (List Char)) (h : hsOK ls) :
    hsOK (trimB ls) := by
  obtain ⟨s, hs, _⟩ := trimB_prefix ls
  exact hsOK_append_left _ s (by rw [hs]; exact h)

theorem nabOK_trimB (ls : List (List Char)) (h : nabOK ls) :
    nabOK (trimB ls) := by
  obtain ⟨s, hs, _⟩ := trimB_prefix ls
  exact nabOK_append_left _ s (by rw [hs]; exact h)

theorem trimB_getLast : ∀ (ls : List (List Char)) (x : List Char),
    (trimB ls).getLast? = some x → x ≠ [] := by
  intro ls
  induction ls with
  | nil => intro x hx; simp [trimB] at hx
  | cons l r ih =>
    intro x hx
    cases ht : trimB r with
    | nil =>
      rw [trimB, ht] at hx
      by_cases hl : l.isEmpty
      · rw [if_pos hl] at hx
        simp at hx
      · rw [if_neg hl] at hx
        simp only [List.getLast?_singleton, Option.some.injEq] at hx
        subst hx
        simpa using hl
    | cons t ts =>
      rw [trimB, ht] at hx
      rw [List.getLast?_cons_cons] at hx
      exact ih x (ht ▸ hx)

theorem trimB_head (ls : List (List Char)) (h : List Char)
    (hh : (trimB ls).head? = some h) : ls.head? = some h := by
  cases ls with
  | nil => simp [trimB] at hh
  | cons l r =>
    cases ht : trimB r with
    | nil =>
      rw [trimB, ht] at hh
      by_cases hl : l.isEmpty
      · rw [if_pos hl] at hh
        simp at hh
      · rw [if_neg hl] at hh
        simp only [List.head?_cons, Option.some.injEq] at hh ⊢
        exact hh
    | cons t ts =>
      rw [trimB, ht] at hh
      simp only [List.head?_cons, Option.some.injEq] at hh ⊢
      exact hh

theorem trimB_id : ∀ (ls : List (List Char)),
    (∀ x, ls.getLast? = some x → x ≠ []) → trimB ls = ls := by
  intro ls
  induction ls with
  | nil => intro _; rfl
  | cons l r ih =>
    intro h
    cases r with
    | nil =>
      have hl : l ≠ [] := h l rfl
      rw [trimB]
      simp only [trimB]
      rw [if_neg (by simpa using hl)]
    | cons r1 r2 =>
      have hr : trimB (r1 :: r2) = r1 :: r2 := by
        refine ih ?_
        intro x hx
        refine h x ?_
        rw [List.getLast?_cons_cons]
        exact hx
      rw [trimB, hr]

theorem joinNl_cons (l : List Char) (ls : List (List Char)) (h : ls ≠ []) :
    joinNl (l :: ls) = l ++ '\n' :: joinNl ls := by
  cases ls with
  | nil => exact absurd rfl h
  | cons r rest => rfl

theorem joinNl_chars : ∀ (ls : List (List Char)), ∀ c ∈ joinNl ls,
    (∃ l ∈ ls, c ∈ l) ∨ c = '\n' := by
  intro ls
  induction ls with
  | nil => intro c hc; exact absurd hc (List.not_mem_nil c)
  | cons l rest ih =>
    intro c hc
    cases rest with
    | nil => exact Or.inl ⟨l, by simp, hc⟩
    | cons r rest2 =>
      rw [joinNl] at hc
      rcases List.mem_append.mp hc with h | h
      · exact Or.inl ⟨l, by simp, h⟩
      · rcases List.mem_cons.mp h with h2 | h2
        · exact Or.inr h2
        · rcases ih c h2 with ⟨l2, hl2, hcl2⟩ | h3
          · exact Or.inl ⟨l2, by simp [hl2], hcl2⟩
          · exact Or.inr h3

theorem dropWhile_append {α : Type} (p : α → Bool) :
    ∀ (a b : List α),
      List.dropWhile p (a ++ b) =
        if (List.dropWhile p a).isEmpty then List.dropWhile p b
        else List.dropWhile p a ++ b := by
  intro a
  induction a with
  | nil => intro b; simp
  | cons x a2 ih =>
    intro b
    by_cases hx : p x
    · simp only [List.cons_append, List.dropWhile_cons, hx, if_true]
      exact ih b
    · simp [List.dropWhile_cons, hx]

theorem dropLead_append_ne (l X : List Char) (hne : l ≠ [])
    (hh : headNotSp l = true) : dropLead (l ++ X) = l ++ X := by
  cases l with
  | nil => exact absurd rfl hne
  | cons c l2 =>
    rw [headNotSp] at hh
    simp only [Bool.not_eq_true'] at hh
    simp [dropLead, List.dropWhile_cons, hh]

theorem dropLead_joinNl : ∀ (ls : List (List Char)),
    (∀ l ∈ ls, lineGood l = true) →
    dropLead (joinNl ls) = joinNl (trimF ls) := by
  intro ls
  induction ls with
  | nil => intro _; rfl
  | cons l rest ih =>
    intro h
    by_cases hl : l.isEmpty
    · have hl2 : l = [] := by simpa using hl
      subst hl2
      rw [show trimF ([] :: rest) = trimF rest by
        simp [trimF, List.dropWhile_cons]]
      cases rest with
      | nil => rfl
      | cons r rest2 =>
        rw [joinNl]
        simp only [List.nil_append]
        rw [show dropLead ('\n' :: joinNl (r :: rest2)) =
            dropLead (joinNl (r :: rest2)) by
          simp [dropLead, List.dropWhile_cons, isPySpace]]
        exact ih (fun x hx => h x (by simp [hx]))
    · have hlG := h l (by simp)
      have hhead : headNotSp l = true := (lineGood_parts l hlG).2.2.1
      have hlne : l ≠ [] := by simpa using hl
      rw [show trimF (l :: rest) = l :: rest by
        simp [trimF, List.dropWhile_cons, hl]]
      cases rest with
      | nil => exact dropLead_id l hhead
      | cons r rest2 =>
        rw [joinNl, dropLead_append_ne l _ hlne hhead]

theorem joinNl_eq_nil : ∀ (ls : List (List Char)), joinNl ls = [] →
    ls = [] ∨ ls = [[]] := by
  intro ls h
  cases ls with
  | nil => exact Or.inl rfl
  | cons l rest =>
    cases rest with
    | nil =>
      refine Or.inr ?_
      rw [show l = [] from h]
    | cons r rest2 =>
      rw [joinNl] at h
      exact absurd h (by simp)

theorem dropTrail_append (a b : List Char) :
    dropTrail (a ++ b) =
      if (dropTrail b).isEmpty then dropTrail a else a ++ dropTrail b := by
  rw [dropTrail, List.reverse_append, dropWhile_append]
  have hiso : (List.dropWhile isPySpace b.reverse).isEmpty =
      (dropTrail b).isEmpty := by
    rw [dropTrail]
    cases hb : List.dropWhile isPySpace b.reverse with
    | nil => rfl
    | cons c r => simp
  by_cases hb : (List.dropWhile isPySpace b.reverse).isEmpty
  · rw [if_pos hb, if_pos (hiso ▸ hb)]
    rfl
  · rw [if_neg hb, if_neg (hiso ▸ hb), List.reverse_append,
      List.reverse_reverse]
    rfl

theorem dropTrail_nl : dropTrail ['\n'] = [] := by decide

theorem dropTrail_joinNl : ∀ (ls : List (List Char)),
    (∀ l ∈ ls, lineGood l = true) →
    dropTrail (joinNl ls) = joinNl (trimB ls) := by
  intro ls
  induction ls with
  | nil => intro _; rfl
  | cons l rest ih =>
    intro h
    have hlG := h l (by simp)
    have hlast : headNotSp l.reverse = true := (lineGood_parts l hlG).2.2.2
    cases rest with
    | nil =>
      by_cases hl : l.isEmpty
      · have hl2 : l = [] := by simpa using hl
        subst hl2
        rw [show trimB [([] : List Char)] = [] by
          rw [trimB]; simp [trimB]]
        rfl
      · rw [show trimB [l] = [l] by
          rw [trimB]; simp only [trimB]; rw [if_neg hl]]
        exact dropTrail_id l hlast
    | cons r rest2 =>
      have hrest : ∀ x ∈ r :: rest2, lineGood x = true :=
        fun x hx => h x (by simp [hx])
      have IH := ih hrest
      rw [joinNl, dropTrail_append]
      have hnlJ : dropTrail ('\n' :: joinNl (r :: rest2)) =
          if (dropTrail (joinNl (r :: rest2))).isEmpty then []
          else '\n' :: dropTrail (joinNl (r :: rest2)) := by
        rw [show ('\n' :: joinNl (r :: rest2)) =
            ['\n'] ++ joinNl (r :: rest2) from rfl, dropTrail_append]
        by_cases hJ : (dropTrail (joinNl (r :: rest2))).isEmpty
        · rw [if_pos hJ, if_pos hJ, dropTrail_nl]
        · rw [if_neg hJ, if_neg hJ]
          rfl
      by_cases hJ : (dropTrail (joinNl (r :: rest2))).isEmpty
      · have hJ2 : joinNl (trimB (r :: rest2)) = [] := by
          rw [← IH]
          simpa using hJ
        have htB : trimB (r :: rest2) = [] := by
          rcases joinNl_eq_nil _ hJ2 with h2 | h2
          · exact h2
          · exfalso
            refine trimB_getLast (r :: rest2) [] ?_ rfl
            rw [h2]
            rfl
        rw [hnlJ, if_pos hJ]
        simp only [List.isEmpty_nil, if_true]
        rw [show trimB (l :: r :: rest2) =
            (if l.isEmpty then [] else [l]) by
          rw [trimB, htB]]
        by_cases hl : l.isEmpty
        · have hl2 : l = [] := by simpa using hl
          subst hl2
          rw [if_pos hl]
          rfl
        · rw [if_neg hl]
          exact dropTrail_id l hlast
      · have hJ2 : trimB (r :: rest2) ≠ [] := by
          intro hx
          rw [hx] at IH
          refine hJ ?_
          rw [IH]
          rfl
        rw [hnlJ, if_neg hJ]
        simp only [List.isEmpty_cons, if_false]
        rw [IH]
        rw [show trimB (l :: r :: rest2) = l :: trimB (r :: rest2) by
          rw [trimB]
          cases htx : trimB (r :: rest2) with
          | nil => exact absurd htx hJ2
          | cons t ts => rfl]
        rw [joinNl_cons l _ hJ2]
        simp

theorem stripJoin_trim (ls : List (List Char))
    (h : ∀ l ∈ ls, lineGood l = true) :
    pyStrip (joinNl ls) = joinNl (trimLs ls) := by
  rw [pyStrip, dropLead_joinNl ls h,
    dropTrail_joinNl (trimF ls) (fun l hl => h l (trimF_mem ls l hl)),
    trimLs]

theorem map_normLine_id (ls : List (List Char))
    (h : ∀ l ∈ ls, lineGood l = true) : ls.map normLine = ls := by
  induction ls with
  | nil => rfl
  | cons l r ih =>
    rw [List.map_cons, normLine_id l (h l (by simp)),
      ih (fun x hx => h x (by simp [hx]))]

theorem splitLines_printable (x : List Char) :
    ∀ l ∈ splitLines (pass2 (pass1 x)), ∀ c ∈ l, printableB c = true := by
  intro l hl c hc
  have h1 : c ∈ pass2 (pass1 x) := splitLines_chars _ l hl c hc
  have h2 : c ∈ pass1 x := pass2_subset _ c h1
  have h3 := pass1_chars x c h2
  have h4 : c ≠ '\n' := by
    have h5 := splitLines_nl_free (pass2 (pass1 x)) l hl
    intro he
    exact h5 (he ▸ hc)
  rcases h3 with h | h
  · exact h
  · exact absurd h h4

theorem cleanLines_good (x : List Char) :
    ∀ l ∈ cleanLines x, lineGood l = true := by
  intro l hl
  rw [cleanLines] at hl
  have h6 := pass6Go_mem _ false l hl
  rcases pass5_mem _ l h6 with h5 | h5
  · have h4 := pass4_mem _ l h5
    rcases List.mem_map.mp h4 with ⟨l0, hl0, hmap⟩
    rw [← hmap]
    exact normLine_good l0 (splitLines_printable x l0 hl0)
  · rw [h5]
    exact lineGood_nil

theorem cleanLines_keep (x : List Char) :
    ∀ l ∈ cleanLines x, keepB l = true := by
  intro l hl
  rw [cleanLines] at hl
  have h6 := pass6Go_mem _ false l hl
  rcases pass5_mem _ l h6 with h5 | h5
  · exact pass4_keep _ l h5
  · rw [h5]
    exact keepB_nil

theorem cleanLines_no_nl (x : List Char) :
    ∀ l ∈ cleanLines x, '\n' ∉ l := by
  intro l hl
  rw [cleanLines] at hl
  have h6 := pass6Go_mem _ false l hl
  rcases pass5_mem _ l h6 with h5 | h5
  · have h4 := pass4_mem _ l h5
    rcases List.mem_map.mp h4 with ⟨l0, hl0, hmap⟩
    rw [← hmap]
    intro hmem
    rcases normLine_chars l0 '\n' hmem with h | h
    · exact absurd h (by decide)
    · exact splitLines_nl_free _ l0 hl0 h
  · rw [h5]
    simp

theorem cleanLines_hsOK (x : List Char) : hsOK (cleanLines x) := by
  rw [cleanLines]
  exact pass6_hsOK _ (pass5_hsOK _)

theorem cleanLines_nab (x : List Char) : nabOK (cleanLines x) :=
  pass6_nab _

theorem canonLines_canon (x : List Char) : Canon (canonLines x) := by
  have hmem : ∀ l ∈ canonLines x, l ∈ cleanLines x := by
    intro l hl
    rw [canonLines, trimLs] at hl
    exact trimF_mem _ l (trimB_mem _ l hl)
  refine ⟨fun l hl => cleanLines_good x l (hmem l hl),
    fun l hl => cleanLines_keep x l (hmem l hl),
    fun l hl => cleanLines_no_nl x l (hmem l hl),
    ?_, ?_, ?_, ?_⟩
  · rw [canonLines, trimLs]
    exact hsOK_trimB _ (hsOK_trimF _ (cleanLines_hsOK x))
  · rw [canonLines, trimLs]
    exact nabOK_trimB _ (nabOK_trimF _ (cleanLines_nab x))
  · intro h hh
    rw [canonLines, trimLs] at hh
    exact trimF_head _ h (trimB_head _ h hh)
  · intro h hh
    rw [canonLines, trimLs] at hh
    exact trimB_getLast _ h hh

theorem clean_text_eq_join (x : List Char) :
    clean_text x = joinNl (canonLines x) := by
  rw [clean_text, canonLines]
  exact stripJoin_trim (cleanLines x) (cleanLines_good x)

theorem canon_clean_fix (ls : List (List Char)) (hne : ls ≠ [])
    (hc : Canon ls) (hhb : hasHB (joinNl ls) = false) :
    clean_text (joinNl ls) = joinNl ls := by
  obtain ⟨hGood, hKeep, hNl, hHs, hNab, hHead, hLast⟩ := hc
  have hchars : ∀ c ∈ joinNl ls, printableB c = true ∨ c = '\n' := by
    intro c hcm
    rcases joinNl_chars ls c hcm with ⟨l, hl, hcl⟩ | h
    · exact Or.inl ((lineGood_parts l (hGood l hl)).1 c hcl)
    · exact Or.inr h
  have h1 : pass1 (joinNl ls) = joinNl ls := pass1_id _ hchars
  have h2 : pass2 (joinNl ls) = joinNl ls := noHB_pass2_id _ hhb
  have h3 : splitLines (joinNl ls) = ls := splitLines_joinNl ls hne hNl
  have h4 : ls.map normLine = ls := map_normLine_id ls hGood
  have h5 : pass4 ls = ls := pass4_id ls hKeep
  have h6 : pass5 ls = ls := pass5_id ls hHs
  have h7 : pass6 ls = ls := pass6_id ls hNab
  rw [clean_text, cleanLines, h1, h2, h3, h4, h5, h6, h7,
    stripJoin_trim ls hGood, trimLs, trimF_id ls hHead,
    trimB_id ls hLast]

/-- Claim C3, counterexample: the sanitizer is not idempotent.  On
`"ab- \ncd"` the first pass yields `"ab-\ncd"` (the trailing space is
stripped after the hyphen-repair pass already ran), and a second
application now joins the newly created hyphen break, yielding `"abcd"`. -/
theorem clean_text_not_idempotent :
    clean_text (clean_text "ab- \ncd".toList) ≠
      clean_text "ab- \ncd".toList := by
  decide

/-- Claim C3, amended: the sanitizer is idempotent on every input whose
sanitized output contains no hyphen-break redex (a `-` immediately
followed by a newline and a non-whitespace character).  Only such
trailing-hyphen line breaks — which the per-line whitespace stripping of
pass 3 can create after pass 2 already ran — are rewritten again by a
second application. -/
theorem clean_text_idempotent_of_no_hyphen_break (x : List Char)
    (h : hasHB (clean_text x) = false) :
    clean_text (clean_text x) = clean_text x := by
  rw [clean_text_eq_join x] at h ⊢
  by_cases hL : canonLines x = []
  · rw [hL]
    rfl
  · exact canon_clean_fix (canonLines x) hL (canonLines_canon x) h

/-- Witness for the amended C3 at `"hi\nthere friend"`, whose sanitized
form has no hyphen-break redex. -/
theorem clean_text_idempotent_witness :
    hasHB (clean_text "hi\nthere friend".toList) = false ∧
    clean_text (clean_text "hi\nthere friend".toList) =
      clean_text "hi\nthere friend".toList :=
  ⟨by decide,
   clean_text_idempotent_of_no_hyphen_break "hi\nthere friend".toList
     (by decide)⟩

/-- Claim C9: every character of the sanitizer's output is printable
ASCII (0x20-0x7E) or a newline. -/
theorem clean_text_printable (x : List Char) (c : Char)
    (h : c ∈ clean_text x) :
    (0x20 ≤ c.toNat ∧ c.toNat ≤ 0x7e) ∨ c = '\n' := by
  rw [clean_text_eq_join x] at h
  rcases joinNl_chars _ c h with ⟨l, hl, hcl⟩ | h2
  · have hg := (canonLines_canon x).1 l hl
    have h3 := (lineGood_parts l hg).1 c hcl
    rw [printableB] at h3
    simp only [Bool.and_eq_true, decide_eq_true_eq] at h3
    exact Or.inl h3
  · exact Or.inr h2

/-- Witness for C9: the character `'h'` of `clean_text "hi\nwow"` is
printable. -/
theorem clean_text_printable_witness :
    ('h' ∈ clean_text "hi\nwow".toList) ∧
    ((0x20 ≤ 'h'.toNat ∧ 'h'.toNat ≤ 0x7e) ∨ 'h' = '\n') :=
  ⟨by decide,
   clean_text_printable "hi\nwow".toList 'h' (by decide)⟩

end DocScan
